import Mathlib

/-!
Verification of the nock-repl interpreter (a Rust Nock interpreter and repl).

The development shallowly embeds the interpreter's data model and operations:

* `Noun` mirrors `parser::Noun` (an `Atom(u64)` or a `Cell(Vec<Noun>)`);
  atom values are modelled as `Nat`, with reduction modulo `2 ^ 64` inserted
  exactly where the Rust `u64` arithmetic can wrap.
* `Noun.flatten`, `Noun.head`, `Noun.tail` mirror the methods in `parser.rs`;
  `flatten` returns `Option` because the Rust code calls `.unwrap()` on the
  popped vector, which panics when the last element is an empty `Cell`.
* `make_tree_path`, `fas`, `wut`, `lus`, `cmp_noun`, `tis`, `nock_internal`
  (here `nock`, with an explicit fuel argument for the general recursion) and
  `compute` mirror `nock.rs`.
* The tokenizer and parser of `tokenizer.rs` / `parser.rs` are embedded as
  functions over character and token lists.

Functions that recurse in a way Lean cannot see as structural carry a fuel
argument; a fuel bound sufficient for every input is proved where needed, so
no behaviour is lost.
-/

inductive Noun where
  | Atom (u : Nat)
  | Cell (l : List Noun)
deriving Repr

/-- Constructor shorthand mirroring `parser::atom`. -/
def atom (u : Nat) : Noun := Noun.Atom u

mutual

def Noun.beq : Noun → Noun → Bool
  | .Atom a, .Atom b => a == b
  | .Cell l, .Cell m => Noun.beqList l m
  | _, _ => false

def Noun.beqList : List Noun → List Noun → Bool
  | [], [] => true
  | x :: xs, y :: ys => Noun.beq x y && Noun.beqList xs ys
  | _, _ => false

end

mutual

theorem Noun.beq_iff : ∀ a b : Noun, Noun.beq a b = true ↔ a = b
  | .Atom _, .Atom _ => by simp [Noun.beq]
  | .Atom _, .Cell _ => by simp [Noun.beq]
  | .Cell _, .Atom _ => by simp [Noun.beq]
  | .Cell l, .Cell m => by
      simp only [Noun.beq, Noun.Cell.injEq]
      exact Noun.beqList_iff l m

theorem Noun.beqList_iff : ∀ l m : List Noun, Noun.beqList l m = true ↔ l = m
  | [], [] => by simp [Noun.beqList]
  | [], _ :: _ => by simp [Noun.beqList]
  | _ :: _, [] => by simp [Noun.beqList]
  | x :: xs, y :: ys => by
      simp only [Noun.beqList, Bool.and_eq_true, List.cons.injEq]
      rw [Noun.beq_iff x y, Noun.beqList_iff xs ys]

end

instance : DecidableEq Noun := fun a b =>
  decidable_of_iff (Noun.beq a b = true) (Noun.beq_iff a b)

instance {ε α : Type} [DecidableEq ε] [DecidableEq α] : DecidableEq (Except ε α) :=
  fun x y =>
  match x, y with
  | .ok a, .ok b =>
      if h : a = b then .isTrue (by rw [h]) else .isFalse (by simp [h])
  | .error e, .error f =>
      if h : e = f then .isTrue (by rw [h]) else .isFalse (by simp [h])
  | .ok _, .error _ => .isFalse (by simp)
  | .error _, .ok _ => .isFalse (by simp)

mutual

/-- Structural size of a noun, used as a fuel bound for the recursions the
Rust code performs on nouns. -/
def Noun.size : Noun → Nat
  | .Atom _ => 1
  | .Cell l => 1 + Noun.sizeList l

def Noun.sizeList : List Noun → Nat
  | [] => 1
  | x :: xs => Noun.size x + Noun.sizeList xs

end

/-- Mirror of `Noun::flatten` in `parser.rs`: pop the last element; when it is
a `Cell`, splice that cell's elements in place of the popped element.  The
Rust code runs `list.pop().unwrap()` on the inner vector, which panics when
the last element is an empty cell; that panic is modelled as `none`. -/
def Noun.flatten (nouns : List Noun) : Option (List Noun) :=
  match nouns.getLast? with
  | some (Noun.Cell list) =>
      match list with
      | [] => none
      | _ :: _ => some (nouns.dropLast ++ list)
  | _ => some nouns

/-- Mirror of the `cell!` macro in `parser.rs`: build a `Cell` from a list of
nouns after flattening it. -/
def mkCell (xs : List Noun) : Option Noun := (Noun.flatten xs).map Noun.Cell

/-- Mirror of `Noun::head`: the first element of a non-empty cell. -/
def Noun.head : Noun → Except String Noun
  | .Cell (x :: _) => .ok x
  | _ => .error "!! Atoms or ~ have no head"

/-- Mirror of `Noun::tail`: the elements after the first, for a cell of at
least two elements. -/
def Noun.tail : Noun → Except String (List Noun)
  | .Cell (_ :: y :: ys) => .ok (y :: ys)
  | _ => .error "!! Atoms or cells of (len < 2) have no tail"

/-- Mirror of `slice_to_noun` in `nock.rs`. -/
def slice_to_noun : List Noun → Except String Noun
  | x :: y :: ys => .ok (.Cell (x :: y :: ys))
  | [x] => .ok x
  | [] => .error "!! Nock Empty Cell"

/-- Fueled body of `make_tree_path`: emit the parity of the address, below
the path for its parent, stopping once the parent is the root. -/
def mtpF : Nat → Nat → List Bool
  | 0, _ => []
  | f + 1, a =>
      if a / 2 ≤ 1 then [decide (a % 2 = 0)]
      else mtpF f (a / 2) ++ [decide (a % 2 = 0)]

/-- Mirror of `make_tree_path` in `nock.rs`.  The loop halves the address at
each step, so `addr + 1` units of fuel always suffice. -/
def make_tree_path (addr : Nat) : List Bool := mtpF (addr + 1) addr

/-- Walk of the path computed by `make_tree_path`, as in the `for` loop of
`fas`: `true` takes the head, `false` takes the tail as a noun. -/
def walkPath : List Bool → Noun → Except String Noun
  | [], s => .ok s
  | true :: p, s => (Noun.head s).bind (walkPath p)
  | false :: p, s => ((Noun.tail s).bind slice_to_noun).bind (walkPath p)

/-- Mirror of `fas` in `nock.rs` (the slot / tree-addressing operator). -/
def fas (subj : Noun) (addr : Nat) : Except String Noun :=
  if addr = 0 then .error "!! Invalid slot address 0"
  else if addr = 1 then .ok subj
  else if addr = 2 then Noun.head subj
  else if addr = 3 then (Noun.tail subj).bind slice_to_noun
  else walkPath (make_tree_path addr) subj

/-- Mirror of `wut` in `nock.rs`: 1 for an atom, 0 for a cell. -/
def wut : Noun → Noun
  | .Atom _ => atom 1
  | .Cell _ => atom 0

/-- Mirror of `lus` in `nock.rs`: increment an atom (the Rust `u64` addition
wraps at `2 ^ 64`), crash on a cell. -/
def lus : Noun → Except String Noun
  | .Atom a => .ok (atom ((a + 1) % 2 ^ 64))
  | .Cell _ => .error "!! Can't increment a cell"

mutual

/-- Fueled mirror of `cmp_noun` in `nock.rs`.  The recursion of the Rust
function is not structural in either argument, so fuel makes it total; the
wrapper `cmp_noun` supplies `Noun.size a + Noun.sizeList b` fuel, which is
proved sufficient where the function is reasoned about. -/
def cmpF : Nat → Noun → List Noun → Noun
  | 0, _, _ => atom 1
  | f + 1, .Cell list, b =>
      match b with
      | [Noun.Cell list2] => cmpF f (.Cell list) list2
      | _ =>
          if list.length = b.length then cmpAllF f list b else atom 1
  | _ + 1, .Atom av, b =>
      match b with
      | [Noun.Atom bv] => if av = bv then atom 0 else atom 1
      | _ => atom 1

/-- Fueled mirror of the elementwise loop in `cmp_noun`: falsy as soon as one
pair compares falsy, truthy after the loop. -/
def cmpAllF : Nat → List Noun → List Noun → Noun
  | 0, _, _ => atom 1
  | _ + 1, [], _ => atom 0
  | f + 1, x :: xs, b =>
      match b with
      | [] => atom 0
      | y :: ys =>
          if cmpF f x [y] = atom 1 then atom 1 else cmpAllF f xs ys

end

/-- Mirror of `cmp_noun` with its fuel instantiated to a sufficient bound. -/
def cmp_noun (a : Noun) (b : List Noun) : Noun :=
  cmpF (Noun.size a + Noun.sizeList b) a b

/-- Mirror of `tis` in `nock.rs`: compare a cell's first element against the
rest. -/
def tis : Noun → Except String Noun
  | .Atom _ => .error "!! Can't compaire Atom like a cell"
  | .Cell list =>
      match list with
      | a :: b :: rest => .ok (cmp_noun a (b :: rest))
      | _ => .error "!! Can't compare a cell of only one Noun"

/-- Formula constructed by the opcode 6 arm of `nock_internal` (every inner
bracketed pair goes through the same `cell!` constructor). -/
def macro6F (b c d : Noun) : Option Noun := do
  let i1 ← mkCell [atom 0, atom 1]
  let q ← mkCell [atom 1, c, d]
  let i2 ← mkCell [atom 1, atom 0]
  let i3 ← mkCell [atom 1, atom 2, atom 3]
  let i4 ← mkCell [atom 1, atom 0]
  mkCell [atom 2, i1, atom 2, q, i2, atom 2, i3, i4, atom 4, atom 4, b]

/-- Formula constructed by the opcode 7 arm of `nock_internal`. -/
def macro7F (b c : Noun) : Option Noun := mkCell [atom 2, b, atom 1, c]

/-- Formula constructed by the opcode 8 arm of `nock_internal`. -/
def macro8F (b c : Noun) : Option Noun := do
  let i1 ← mkCell [atom 0, atom 1]
  let i2 ← mkCell [atom 7, i1, b]
  let i3 ← mkCell [i2, atom 0, atom 1]
  mkCell [atom 7, i3, c]

/-- Formula constructed by the opcode 9 arm of `nock_internal`. -/
def macro9F (b c : Noun) : Option Noun := do
  let i1 ← mkCell [atom 0, atom 1]
  mkCell [atom 7, c, atom 2, i1, atom 0, b]

/-- Formula constructed by the second (cell-hint) opcode 10 arm of
`nock_internal`, from the already-sliced `c` and the original `d`. -/
def macro10F (c d : Noun) : Option Noun := do
  let i1 ← mkCell [atom 0, atom 3]
  mkCell [atom 8, c, atom 7, i1, d]

/-- Result of a Nock evaluation: a noun, a `NockError` with its message, a
Rust panic (vector underflow or out-of-bounds slice), or fuel exhaustion. -/
inductive NRes where
  | ok (n : Noun)
  | err (msg : String)
  | panic
  | timeout
deriving Repr, DecidableEq

/-- Bind for `Except` results inside a Nock evaluation (the `try!` macro). -/
def ebind {α : Type} : Except String α → (α → NRes) → NRes
  | .ok v, k => k v
  | .error e, _ => .err e

/-- Bind for panicking (`Option`) steps inside a Nock evaluation. -/
def obind {α : Type} : Option α → (α → NRes) → NRes
  | some v, k => k v
  | none, _ => .panic

/-- Bind of one Nock evaluation into the next. -/
def nbind : NRes → (Noun → NRes) → NRes
  | .ok n, k => k n
  | .err e, _ => .err e
  | .panic, _ => .panic
  | .timeout, _ => .timeout

/-- Mirror of `nock_internal` in `nock.rs`, with fuel for the general
recursion (every recursive call of the Rust function costs one unit). -/
def nock : Nat → Noun → Noun → NRes
  | 0, _, _ => .timeout
  | fuel + 1, subj, formula =>
    match formula with
    | .Atom _ => .err "!! Nock Infinite Loop"
    | .Cell l =>
      ebind (Noun.head (.Cell l)) fun h =>
      match h with
      | .Atom a =>
        match a with
        | 0 =>
            ebind (Noun.tail (.Cell l)) fun ts =>
            ebind (slice_to_noun ts) fun t =>
            match t with
            | .Atom b => ebind (fas subj b) NRes.ok
            | .Cell _ => .err "!! not a slot index"
        | 1 =>
            ebind (Noun.tail (.Cell l)) fun ts =>
            ebind (slice_to_noun ts) NRes.ok
        | 2 =>
            ebind (Noun.tail (.Cell l)) fun ts =>
            ebind (slice_to_noun ts) fun t =>
            nock fuel subj t
        | 3 =>
            ebind (Noun.tail (.Cell l)) fun ts =>
            ebind (slice_to_noun ts) fun t =>
            nbind (nock fuel subj t) fun r => .ok (wut r)
        | 4 =>
            ebind (Noun.tail (.Cell l)) fun ts =>
            ebind (slice_to_noun ts) fun t =>
            match t with
            | .Cell _ => nbind (nock fuel subj t) fun r => ebind (lus r) NRes.ok
            | .Atom _ => ebind (lus t) NRes.ok
        | 5 =>
            ebind (Noun.tail (.Cell l)) fun ts =>
            ebind (slice_to_noun ts) fun t =>
            ebind (tis t) NRes.ok
        | 6 =>
            ebind (Noun.tail (.Cell l)) fun ts =>
            match ts with
            | b :: c :: e :: r =>
                ebind (slice_to_noun (e :: r)) fun d =>
                obind (macro6F b c d) fun f =>
                nock fuel subj f
            | _ => .err "!! Need 3 Nouns for macro 6"
        | 7 =>
            ebind (Noun.tail (.Cell l)) fun ts =>
            match ts with
            | b :: c :: _ =>
                obind (macro7F b c) fun f =>
                nock fuel subj f
            | _ => .err "!! Need 2 Nouns for macro 7"
        | 8 =>
            ebind (Noun.tail (.Cell l)) fun ts =>
            match ts with
            | b :: c :: _ =>
                obind (macro8F b c) fun f =>
                nock fuel subj f
            | _ => .err "!! Need 2 Nouns for macro 8"
        | 9 =>
            ebind (Noun.tail (.Cell l)) fun ts =>
            match ts with
            | b :: c :: _ =>
                obind (macro9F b c) fun f =>
                nock fuel subj f
            | _ => .err "!! Need 2 Nouns for macro 9"
        | 10 =>
            ebind (Noun.tail (.Cell l)) fun ts =>
            match ts with
            | b :: c :: _ =>
              match b with
              | .Atom _ => nock fuel subj c
              | .Cell list =>
                match list with
                | [] => .panic
                | _ :: rest =>
                    ebind (slice_to_noun rest) fun c2 =>
                    obind (macro10F c2 c) fun f =>
                    nock fuel subj f
            | _ => .err "!! Need at least 2 Nouns for macro 6"
        | _ => .err "!! Unknown Nock instruction"
      | .Cell hl =>
          nbind (nock fuel subj (.Cell hl)) fun hr =>
          ebind (Noun.tail (.Cell l)) fun ts =>
          ebind (slice_to_noun ts) fun nf =>
          nbind (nock fuel subj nf) fun tr =>
          obind (mkCell [hr, tr]) NRes.ok

/-- Mirror of `compute` in `nock.rs`: evaluate a `⟦subject formula⟧` cell, or
a bare atom against the default subject `Atom(0)`. -/
def compute (fuel : Nat) (noun : Noun) : NRes :=
  match noun with
  | .Atom _ => nock fuel (atom 0) noun
  | .Cell list =>
      if 2 ≤ list.length then
        ebind (Noun.head (.Cell list)) fun s =>
        ebind (Noun.tail (.Cell list)) fun ts =>
        ebind (slice_to_noun ts) fun f =>
        nock fuel s f
      else .err "!! Invalid Nock Expression"

mutual

/-- Predicate for nouns representable by the Rust `Noun` type and respecting
the documented data-model invariant: every cell has at least two elements,
and every atom fits in a `u64`. -/
def Noun.wfB : Noun → Bool
  | .Atom u => decide (u < 2 ^ 64)
  | .Cell l => decide (2 ≤ l.length) && Noun.wfListB l

def Noun.wfListB : List Noun → Bool
  | [] => true
  | x :: xs => Noun.wfB x && Noun.wfListB xs

end

mutual

/-- Predicate for the cell-arity half of the data-model invariant alone:
every cell inside the noun has at least two elements. -/
def Noun.cellsWfB : Noun → Bool
  | .Atom _ => true
  | .Cell l => decide (2 ≤ l.length) && Noun.cellsWfListB l

def Noun.cellsWfListB : List Noun → Bool
  | [] => true
  | x :: xs => Noun.cellsWfB x && Noun.cellsWfListB xs

end

mutual

/-- Predicate for flattened (autocons-normalised) nouns: no cell's last
element is itself a cell.  This is the shape produced by the parser. -/
def Noun.flatB : Noun → Bool
  | .Atom _ => true
  | .Cell l => Noun.flatListB l

def Noun.flatListB : List Noun → Bool
  | [] => true
  | [x] =>
      match x with
      | .Atom _ => true
      | .Cell _ => false
  | x :: xs => Noun.flatB x && Noun.flatListB xs

end

mutual

/-- Opcodes contributed by a noun sitting in operator (head) position of a
cell: a bare atom there is itself an opcode, a cell contributes the opcodes
of its own element chain. -/
def opsHead : Noun → List Nat
  | .Atom n => [n]
  | .Cell l => opsOfCell l

/-- Opcodes contributed by a noun sitting in final tail (data) position of a
cell: a bare atom there is data, a cell contributes the opcodes of its own
element chain. -/
def opsTail : Noun → List Nat
  | .Atom _ => []
  | .Cell l => opsOfCell l

/-- Opcode occurrences of a cell's element list read as the autocons chain
`x0 :: (x1 :: (... :: xk))`: every element but the last is in head position
of some subtree, the last is the innermost tail. -/
def opsOfCell : List Noun → List Nat
  | [] => []
  | [x] => opsTail x
  | x :: xs => opsHead x ++ opsOfCell xs

end

/-- Opcode occurrences of a noun used as a formula. -/
def opcodes : Noun → List Nat
  | .Atom _ => []
  | .Cell l => opsOfCell l

/-- Concatenated head-position opcode contributions of a list of nouns. -/
def opsHeadList : List Noun → List Nat
  | [] => []
  | x :: xs => opsHead x ++ opsHeadList xs

/-- Whitespace characters skipped by the tokenizer (`' '`, tab, LF, CR).
The Rust `gobble_atom` uses `char::is_whitespace`, which agrees with this
set on the ASCII inputs the tokenizer accepts. -/
def isWS (c : Char) : Bool := c = ' ' || c = '\t' || c = '\n' || c = '\r'

/-- Mirror of `gobble_atom` in `tokenizer.rs`: extend a digit-run token with
further digits, consume and ignore dots, stop (consuming) at whitespace or
end of input, stop and push back any other character. -/
def gobble : List Char → List Char → (List Char × List Char)
  | acc, [] => (acc, [])
  | acc, c :: rest =>
      if isWS c then (acc, rest)
      else if c = '.' then gobble acc rest
      else if c.isDigit then gobble (acc ++ [c]) rest
      else (acc, c :: rest)

theorem gobble_length : ∀ acc l, (gobble acc l).2.length ≤ l.length := by
  intro acc l
  induction l generalizing acc with
  | nil => simp [gobble]
  | cons c rest ih =>
      simp only [gobble]
      split
      · simp
      · split
        · exact le_trans (ih acc) (Nat.le_succ _)
        · split
          · exact le_trans (ih (acc ++ [c])) (Nat.le_succ _)
          · simp

/-- Fueled mirror of the tokenizer loop of `tokenizer.rs` over a character
list: brackets are single-character tokens, a digit or dot starts a gobbled
digit-run token, whitespace is skipped, anything else is a fatal error.
Tokens are modelled by their text (`val`); line/column bookkeeping carries no
behaviour.  Every step consumes at least one character, so fuel exceeding
the input length (as supplied by the `tokenize` wrapper) never runs out. -/
def tokenizeF : Nat → List Char → Except String (List (List Char))
  | 0, _ => .error "tokenize fuel exhausted"
  | _ + 1, [] => .ok []
  | f + 1, c :: rest =>
      if c = '[' || c = ']' then
        match tokenizeF f rest with
        | .ok ts => .ok ([c] :: ts)
        | .error e => .error e
      else if c.isDigit || c = '.' then
        match tokenizeF f (gobble [c] rest).2 with
        | .ok ts => .ok ((gobble [c] rest).1 :: ts)
        | .error e => .error e
      else if isWS c then tokenizeF f rest
      else .error "Invalid Character"

/-- Tokenizer over a character list, with always-sufficient fuel. -/
def tokenize (l : List Char) : Except String (List (List Char)) :=
  tokenizeF (l.length + 1) l

theorem tokenizeF_congr : ∀ f g l, l.length < f → l.length < g →
    tokenizeF f l = tokenizeF g l := by
  intro f
  induction f with
  | zero => intro g l hf; omega
  | succ f ih =>
      intro g l hf hg
      match g, l with
      | g + 1, [] => rfl
      | g + 1, c :: rest =>
          simp only [tokenizeF]
          split
          · rw [ih g rest (by simpa using hf) (by simpa using hg)]
          · split
            · rw [ih g (gobble [c] rest).2
                (by have := gobble_length [c] rest; simp at hf; omega)
                (by have := gobble_length [c] rest; simp at hg; omega)]
            · split
              · exact ih g rest (by simpa using hf) (by simpa using hg)
              · rfl

theorem tokenizeF_eq_tokenize (f : Nat) (l : List Char) (h : l.length < f) :
    tokenizeF f l = tokenize l :=
  tokenizeF_congr f (l.length + 1) l h (Nat.lt_succ_self _)

/-- Mirror of `Token::is_atom`: non-empty text starting with a digit. -/
def isAtomTok (t : List Char) : Bool :=
  match t with
  | c :: _ => c.isDigit
  | [] => false

/-- Mirror of `Token::is_cell_start`. -/
def isCellStartTok (t : List Char) : Bool := t == ['[']

/-- Mirror of `Token::is_cell_end`. -/
def isCellEndTok (t : List Char) : Bool := t == [']']

/-- Mirror of `u64::from_str` on a token text: some value below `2 ^ 64` for
a non-empty all-digit string, failure otherwise (including overflow). -/
def u64FromDigits (s : List Char) : Option Nat :=
  match s with
  | [] => none
  | _ =>
      if s.all Char.isDigit then
        if s.foldl (fun a c => 10 * a + (c.toNat - 48)) 0 < 2 ^ 64 then
          some (s.foldl (fun a c => 10 * a + (c.toNat - 48)) 0)
        else none
      else none

/-- Mirror of `Parser::parse_atom`. -/
def parse_atomN (t : List Char) : Except String Noun :=
  match u64FromDigits t with
  | some v => .ok (.Atom v)
  | none => .error "Atom ParseError"

/-- Mirror of `Tokenizer::next` over the remaining token list: end of the
list is the tokenizer's end-of-stream error. -/
def nextTok : List (List Char) → Except String (List Char × List (List Char))
  | [] => .error "End of stream"
  | t :: ts => .ok (t, ts)

mutual

/-- Fueled mirror of `Parser::parse`: an atom token parses to an atom, a `[`
token opens a cell, anything else is the "Unhandled Token!" error.  The Rust
recursion terminates because every call consumes tokens; fuel makes that
explicit, and a bound sufficient for parser inputs is proved below. -/
def parseF : Nat → List (List Char) → Except String (Noun × List (List Char))
  | 0, _ => .error "parse fuel exhausted"
  | f + 1, toks =>
      match nextTok toks with
      | .error e => .error e
      | .ok (t, ts) =>
          if isAtomTok t then
            match parse_atomN t with
            | .ok n => .ok (n, ts)
            | .error e => .error e
          else if isCellStartTok t then parseCellF f ts
          else .error "Unhandled Token!"

/-- Fueled mirror of `Parser::parse_cell` (after the opening `[` has been
consumed): parse the first element, then run the element loop. -/
def parseCellF : Nat → List (List Char) → Except String (Noun × List (List Char))
  | 0, _ => .error "parse fuel exhausted"
  | f + 1, toks =>
      match parseF f toks with
      | .error e => .error e
      | .ok (n, ts) =>
          match parseLoopF f [n] ts with
          | .error e => .error e
          | .ok (list, ts2) => .ok (.Cell list, ts2)

/-- Fueled mirror of the token loop inside `Parser::parse_cell`: push parsed
atoms and nested cells, flatten and stop at `]`, silently skip any other
token.  The flatten panic (empty-cell last element) is surfaced as an
error message that no real parse reaches. -/
def parseLoopF : Nat → List Noun → List (List Char) →
    Except String (List Noun × List (List Char))
  | 0, _, _ => .error "parse fuel exhausted"
  | f + 1, list, toks =>
      match nextTok toks with
      | .error e => .error e
      | .ok (t, ts) =>
          if isAtomTok t then
            match parse_atomN t with
            | .error e => .error e
            | .ok n => parseLoopF f (list ++ [n]) ts
          else if isCellStartTok t then
            match parseCellF f ts with
            | .error e => .error e
            | .ok (n, ts2) => parseLoopF f (list ++ [n]) ts2
          else if isCellEndTok t then
            match Noun.flatten list with
            | none => .error "flatten panic"
            | some fl => .ok (fl, ts)
          else parseLoopF f list ts

end

/-- Decimal numeral of an atom value, as produced by the `Display`
implementation for `Noun` (Rust's `write!("{}", u)`). -/
def natChars (u : Nat) : List Char :=
  if u = 0 then ['0'] else (Nat.digits 10 u).reverse.map Nat.digitChar

mutual

/-- Mirror of the `Display` implementation for `Noun` in `parser.rs`: an
atom renders as its decimal value, a cell as `[` first element, then each
further element preceded by one space, then `]` (an empty cell renders as
just `]`, exactly as the Rust loop does). -/
def render : Noun → List Char
  | .Atom u => natChars u
  | .Cell l =>
      match l with
      | [] => [']']
      | x :: xs => '[' :: (render x ++ renderRest xs ++ [']'])

def renderRest : List Noun → List Char
  | [] => []
  | x :: xs => ' ' :: render x ++ renderRest xs

end

mutual

/-- Token texts produced by tokenizing the rendering of a noun. -/
def toksOf : Noun → List (List Char)
  | .Atom u => [natChars u]
  | .Cell l =>
      match l with
      | [] => [[']']]
      | x :: xs => ['['] :: (toksOf x ++ toksRest xs ++ [[']']])

def toksRest : List Noun → List (List Char)
  | [] => []
  | x :: xs => toksOf x ++ toksRest xs

end

theorem ebind_ok {α : Type} {x : Except String α} {k : α → NRes} {r : Noun}
    (h : ebind x k = .ok r) : ∃ v, x = .ok v ∧ k v = .ok r := by
  cases x with
  | ok v => exact ⟨v, rfl, h⟩
  | error e => simp [ebind] at h

theorem obind_ok {α : Type} {x : Option α} {k : α → NRes} {r : Noun}
    (h : obind x k = .ok r) : ∃ v, x = some v ∧ k v = .ok r := by
  cases x with
  | some v => exact ⟨v, rfl, h⟩
  | none => simp [obind] at h

theorem nbind_ok {x : NRes} {k : Noun → NRes} {r : Noun}
    (h : nbind x k = .ok r) : ∃ v, x = .ok v ∧ k v = .ok r := by
  cases x with
  | ok v => exact ⟨v, rfl, h⟩
  | err e => simp [nbind] at h
  | panic => simp [nbind] at h
  | timeout => simp [nbind] at h

/-- Fuel monotonicity of the Nock reducer: a successful evaluation is stable
under extra fuel, so a result obtained at any fuel is the result of the
unbounded Rust recursion. -/
theorem nock_mono : ∀ (f : Nat) (s e r : Noun),
    nock f s e = .ok r → nock (f + 1) s e = .ok r := by
  intro f
  induction f with
  | zero => intro s e r h; simp [nock] at h
  | succ f ih =>
      intro s e r h
      match e with
      | .Atom u => exact NRes.noConfusion h
      | .Cell [] => exact NRes.noConfusion h
      | .Cell (.Cell hl :: ls) =>
          rw [show nock (f + 1) s (.Cell (.Cell hl :: ls)) =
            (nbind (nock f s (.Cell hl)) fun hr =>
             ebind (Noun.tail (.Cell (.Cell hl :: ls))) fun ts =>
             ebind (slice_to_noun ts) fun nf =>
             nbind (nock f s nf) fun tr =>
             obind (mkCell [hr, tr]) NRes.ok) from rfl] at h
          obtain ⟨hr, hhr, h⟩ := nbind_ok h
          obtain ⟨ts, hts, h⟩ := ebind_ok h
          obtain ⟨nf, hnf, h⟩ := ebind_ok h
          obtain ⟨tr, htr, h⟩ := nbind_ok h
          rw [show nock (f + 1 + 1) s (.Cell (.Cell hl :: ls)) =
            (nbind (nock (f + 1) s (.Cell hl)) fun hr =>
             ebind (Noun.tail (.Cell (.Cell hl :: ls))) fun ts =>
             ebind (slice_to_noun ts) fun nf =>
             nbind (nock (f + 1) s nf) fun tr =>
             obind (mkCell [hr, tr]) NRes.ok) from rfl]
          rw [ih s _ hr hhr]
          show (ebind (Noun.tail (.Cell (.Cell hl :: ls))) fun ts =>
             ebind (slice_to_noun ts) fun nf =>
             nbind (nock (f + 1) s nf) fun tr =>
             obind (mkCell [hr, tr]) NRes.ok) = .ok r
          rw [hts]
          show (ebind (slice_to_noun ts) fun nf =>
             nbind (nock (f + 1) s nf) fun tr =>
             obind (mkCell [hr, tr]) NRes.ok) = .ok r
          rw [hnf]
          show (nbind (nock (f + 1) s nf) fun tr =>
             obind (mkCell [hr, tr]) NRes.ok) = .ok r
          rw [ih s nf tr htr]
          exact h
      | .Cell (.Atom a :: ls) =>
          rcases a with _|_|_|_|_|_|_|_|_|_|_|a
          · rw [show nock (f + 1 + 1) s (.Cell (.Atom 0 :: ls)) =
              nock (f + 1) s (.Cell (.Atom 0 :: ls)) from rfl]
            exact h
          · rw [show nock (f + 1 + 1) s (.Cell (.Atom 1 :: ls)) =
              nock (f + 1) s (.Cell (.Atom 1 :: ls)) from rfl]
            exact h
          · rw [show nock (f + 1) s (.Cell (.Atom 2 :: ls)) =
              (ebind (Noun.tail (.Cell (.Atom 2 :: ls))) fun ts =>
               ebind (slice_to_noun ts) fun t => nock f s t) from rfl] at h
            obtain ⟨ts, hts, h⟩ := ebind_ok h
            obtain ⟨t, ht, h⟩ := ebind_ok h
            rw [show nock (f + 1 + 1) s (.Cell (.Atom 2 :: ls)) =
              (ebind (Noun.tail (.Cell (.Atom 2 :: ls))) fun ts =>
               ebind (slice_to_noun ts) fun t => nock (f + 1) s t) from rfl]
            rw [hts]
            show (ebind (slice_to_noun ts) fun t => nock (f + 1) s t) = .ok r
            rw [ht]
            exact ih s t r h
          · rw [show nock (f + 1) s (.Cell (.Atom 3 :: ls)) =
              (ebind (Noun.tail (.Cell (.Atom 3 :: ls))) fun ts =>
               ebind (slice_to_noun ts) fun t =>
               nbind (nock f s t) fun v => .ok (wut v)) from rfl] at h
            obtain ⟨ts, hts, h⟩ := ebind_ok h
            obtain ⟨t, ht, h⟩ := ebind_ok h
            obtain ⟨v, hv, h⟩ := nbind_ok h
            rw [show nock (f + 1 + 1) s (.Cell (.Atom 3 :: ls)) =
              (ebind (Noun.tail (.Cell (.Atom 3 :: ls))) fun ts =>
               ebind (slice_to_noun ts) fun t =>
               nbind (nock (f + 1) s t) fun v => .ok (wut v)) from rfl]
            rw [hts]
            show (ebind (slice_to_noun ts) fun t =>
               nbind (nock (f + 1) s t) fun v => .ok (wut v)) = .ok r
            rw [ht]
            show (nbind (nock (f + 1) s t) fun v => .ok (wut v)) = .ok r
            rw [ih s t v hv]
            exact h
          · rw [show nock (f + 1) s (.Cell (.Atom 4 :: ls)) =
              (ebind (Noun.tail (.Cell (.Atom 4 :: ls))) fun ts =>
               ebind (slice_to_noun ts) fun t =>
               match t with
               | .Cell _ => nbind (nock f s t) fun v => ebind (lus v) NRes.ok
               | .Atom _ => ebind (lus t) NRes.ok) from rfl] at h
            obtain ⟨ts, hts, h⟩ := ebind_ok h
            obtain ⟨t, ht, h⟩ := ebind_ok h
            rw [show nock (f + 1 + 1) s (.Cell (.Atom 4 :: ls)) =
              (ebind (Noun.tail (.Cell (.Atom 4 :: ls))) fun ts =>
               ebind (slice_to_noun ts) fun t =>
               match t with
               | .Cell _ => nbind (nock (f + 1) s t) fun v => ebind (lus v) NRes.ok
               | .Atom _ => ebind (lus t) NRes.ok) from rfl]
            rw [hts]
            show (ebind (slice_to_noun ts) fun t =>
               match t with
               | .Cell _ => nbind (nock (f + 1) s t) fun v => ebind (lus v) NRes.ok
               | .Atom _ => ebind (lus t) NRes.ok) = .ok r
            rw [ht]
            match t with
            | .Atom u => exact h
            | .Cell c =>
                obtain ⟨v, hv, h⟩ := nbind_ok h
                show (nbind (nock (f + 1) s (Noun.Cell c)) fun v => ebind (lus v) NRes.ok) = .ok r
                rw [ih s (Noun.Cell c) v hv]
                exact h
          · rw [show nock (f + 1 + 1) s (.Cell (.Atom 5 :: ls)) =
              nock (f + 1) s (.Cell (.Atom 5 :: ls)) from rfl]
            exact h
          · match ls with
            | [] => exact NRes.noConfusion h
            | [b] => exact NRes.noConfusion h
            | [b, c] => exact NRes.noConfusion h
            | b :: c :: e2 :: rest =>
                rw [show nock (f + 1) s (.Cell (.Atom 6 :: b :: c :: e2 :: rest)) =
                  (ebind (slice_to_noun (e2 :: rest)) fun d =>
                   obind (macro6F b c d) fun f2 => nock f s f2) from rfl] at h
                obtain ⟨d, hd, h⟩ := ebind_ok h
                obtain ⟨f2, hf2, h⟩ := obind_ok h
                rw [show nock (f + 1 + 1) s (.Cell (.Atom 6 :: b :: c :: e2 :: rest)) =
                  (ebind (slice_to_noun (e2 :: rest)) fun d =>
                   obind (macro6F b c d) fun f2 => nock (f + 1) s f2) from rfl]
                rw [hd]
                show (obind (macro6F b c d) fun f2 => nock (f + 1) s f2) = .ok r
                rw [hf2]
                exact ih s f2 r h
          · match ls with
            | [] => exact NRes.noConfusion h
            | [b] => exact NRes.noConfusion h
            | b :: c :: rest =>
                rw [show nock (f + 1) s (.Cell (.Atom 7 :: b :: c :: rest)) =
                  (obind (macro7F b c) fun f2 => nock f s f2) from rfl] at h
                obtain ⟨f2, hf2, h⟩ := obind_ok h
                rw [show nock (f + 1 + 1) s (.Cell (.Atom 7 :: b :: c :: rest)) =
                  (obind (macro7F b c) fun f2 => nock (f + 1) s f2) from rfl]
                rw [hf2]
                exact ih s f2 r h
          · match ls with
            | [] => exact NRes.noConfusion h
            | [b] => exact NRes.noConfusion h
            | b :: c :: rest =>
                rw [show nock (f + 1) s (.Cell (.Atom 8 :: b :: c :: rest)) =
                  (obind (macro8F b c) fun f2 => nock f s f2) from rfl] at h
                obtain ⟨f2, hf2, h⟩ := obind_ok h
                rw [show nock (f + 1 + 1) s (.Cell (.Atom 8 :: b :: c :: rest)) =
                  (obind (macro8F b c) fun f2 => nock (f + 1) s f2) from rfl]
                rw [hf2]
                exact ih s f2 r h
          · match ls with
            | [] => exact NRes.noConfusion h
            | [b] => exact NRes.noConfusion h
            | b :: c :: rest =>
                rw [show nock (f + 1) s (.Cell (.Atom 9 :: b :: c :: rest)) =
                  (obind (macro9F b c) fun f2 => nock f s f2) from rfl] at h
                obtain ⟨f2, hf2, h⟩ := obind_ok h
                rw [show nock (f + 1 + 1) s (.Cell (.Atom 9 :: b :: c :: rest)) =
                  (obind (macro9F b c) fun f2 => nock (f + 1) s f2) from rfl]
                rw [hf2]
                exact ih s f2 r h
          · match ls with
            | [] => exact NRes.noConfusion h
            | [b] => exact NRes.noConfusion h
            | b :: c :: rest =>
                match b with
                | .Atom u =>
                    rw [show nock (f + 1 + 1) s
                        (.Cell (.Atom 10 :: .Atom u :: c :: rest)) =
                      nock (f + 1) s c from rfl]
                    rw [show nock (f + 1) s
                        (.Cell (.Atom 10 :: .Atom u :: c :: rest)) =
                      nock f s c from rfl] at h
                    exact ih s c r h
                | .Cell [] => exact NRes.noConfusion h
                | .Cell (b0 :: brest) =>
                    rw [show nock (f + 1) s
                        (.Cell (.Atom 10 :: .Cell (b0 :: brest) :: c :: rest)) =
                      (ebind (slice_to_noun brest) fun c2 =>
                       obind (macro10F c2 c) fun f2 => nock f s f2) from rfl] at h
                    obtain ⟨c2, hc2, h⟩ := ebind_ok h
                    obtain ⟨f2, hf2, h⟩ := obind_ok h
                    rw [show nock (f + 1 + 1) s
                        (.Cell (.Atom 10 :: .Cell (b0 :: brest) :: c :: rest)) =
                      (ebind (slice_to_noun brest) fun c2 =>
                       obind (macro10F c2 c) fun f2 => nock (f + 1) s f2) from rfl]
                    rw [hc2]
                    show (obind (macro10F c2 c) fun f2 => nock (f + 1) s f2) = .ok r
                    rw [hf2]
                    exact ih s f2 r h
          · exact NRes.noConfusion h

/-- Fuel monotonicity of `nock`, between any two fuels. -/
theorem nock_mono_le {f g : Nat} (hfg : f ≤ g) (s e r : Noun)
    (h : nock f s e = .ok r) : nock g s e = .ok r := by
  induction g with
  | zero =>
      have : f = 0 := by omega
      subst this
      exact h
  | succ g ihg =>
      rcases Nat.lt_or_ge f (g + 1) with hlt | hge
      · exact nock_mono g s e r (ihg (by omega))
      · have : f = g + 1 := by omega
        subst this
        exact h

/-- C4 counterexample.  The claim's own example fails: flattening
`[a, Cell([b, Cell([c, d])])]` splices only one level, leaving the result's
last element the cell `[c d]` instead of recursively producing
`[a, b, c, d]`. -/
theorem c4_flatten_counterexample :
    Noun.flatten [atom 0, Noun.Cell [atom 1, Noun.Cell [atom 2, atom 3]]] =
      some [atom 0, atom 1, Noun.Cell [atom 2, atom 3]] ∧
    Noun.flatten [atom 0, Noun.Cell [atom 1, Noun.Cell [atom 2, atom 3]]] ≠
      some [atom 0, atom 1, atom 2, atom 3] := by
  constructor
  · rfl
  · decide

/-- C4 (amended).  For every non-empty list whose last element is a cell
with at least one element, `Noun::flatten` splices that cell's elements in
place of the last element exactly one level deep (so the result's last
element may itself be a cell), leaving all non-last positions unchanged;
when the last element is not a cell the list is returned unchanged. -/
theorem c4_flatten_amended :
    (∀ (v xs : List Noun), v.getLast? = some (Noun.Cell xs) → xs ≠ [] →
      Noun.flatten v = some (v.dropLast ++ xs)) ∧
    (∀ v : List Noun, (∀ xs, v.getLast? ≠ some (Noun.Cell xs)) →
      Noun.flatten v = some v) := by
  constructor
  · intro v xs hlast hne
    unfold Noun.flatten
    rw [hlast]
    match xs, hne with
    | x :: xs, _ => rfl
  · intro v hnot
    unfold Noun.flatten
    match h : v.getLast? with
    | none => rfl
    | some (Noun.Atom u) => rfl
    | some (Noun.Cell xs) => exact absurd h (hnot xs)

/-- C4 witness: a concrete one-level splice. -/
theorem c4_flatten_amended_witness :
    Noun.flatten [atom 1, Noun.Cell [atom 2, atom 3]] = some [atom 1, atom 2, atom 3] := by
  have h := c4_flatten_amended.1 [atom 1, Noun.Cell [atom 2, atom 3]] [atom 2, atom 3]
    (by decide) (by decide)
  simpa using h

/-- C6.  Sample-subject slot lookups of the spec: against `[531 25 99]`
address 1 is the whole subject, 2 is `531`, 3 is `[25 99]`, 6 is `25`,
address 0 errors against every subject and address 12 errors; against
`[531 [25 26] 99]` address 6 is `[25 26]`, 12 is `25` and 13 is `26`. -/
theorem c6_fas_sample_addresses :
    fas (Noun.Cell [atom 531, atom 25, atom 99]) 1 =
      .ok (Noun.Cell [atom 531, atom 25, atom 99]) ∧
    fas (Noun.Cell [atom 531, atom 25, atom 99]) 2 = .ok (atom 531) ∧
    fas (Noun.Cell [atom 531, atom 25, atom 99]) 3 = .ok (Noun.Cell [atom 25, atom 99]) ∧
    fas (Noun.Cell [atom 531, atom 25, atom 99]) 6 = .ok (atom 25) ∧
    (∀ s : Noun, ∃ e, fas s 0 = .error e) ∧
    (∃ e, fas (Noun.Cell [atom 531, atom 25, atom 99]) 12 = .error e) ∧
    fas (Noun.Cell [atom 531, Noun.Cell [atom 25, atom 26], atom 99]) 6 =
      .ok (Noun.Cell [atom 25, atom 26]) ∧
    fas (Noun.Cell [atom 531, Noun.Cell [atom 25, atom 26], atom 99]) 12 = .ok (atom 25) ∧
    fas (Noun.Cell [atom 531, Noun.Cell [atom 25, atom 26], atom 99]) 13 = .ok (atom 26) := by
  refine ⟨by decide, by decide, by decide, by decide, ?_,
    ⟨"!! Atoms or ~ have no head", by decide⟩, by decide, by decide, by decide⟩
  intro s
  exact ⟨_, rfl⟩

/-- C7.  The increment operator `lus` succeeds on every atom in `u64` range
with the wrapping successor `(a + 1) mod 2 ^ 64` — in particular `1` maps to
`2` and `2 ^ 64 - 1` wraps silently to `0` — and fails on every cell. -/
theorem c7_lus_increment :
    (∀ a : Nat, a < 2 ^ 64 → lus (atom a) = .ok (atom ((a + 1) % 2 ^ 64))) ∧
    lus (atom 1) = .ok (atom 2) ∧
    lus (atom (2 ^ 64 - 1)) = .ok (atom 0) ∧
    (∀ l : List Noun, ∃ e, lus (Noun.Cell l) = .error e) := by
  refine ⟨fun a _ => rfl, by decide, by decide, fun l => ⟨_, rfl⟩⟩

/-- C7 witness: the range hypothesis holds at `1` and the theorem applies. -/
theorem c7_lus_increment_witness :
    (1 : Nat) < 2 ^ 64 ∧ lus (atom 1) = .ok (atom ((1 + 1) % 2 ^ 64)) :=
  ⟨by decide, c7_lus_increment.1 1 (by decide)⟩

/-- C8.  A bare atom in formula position is always the "infinite loop"
error, at every recursion depth with fuel remaining, and consequently
`compute` of a bare atom — which evaluates it against the default subject
`Atom(0)` — is the same error. -/
theorem c8_atom_formula_error :
    (∀ (fuel : Nat) (s : Noun) (u : Nat),
      nock (fuel + 1) s (.Atom u) = .err "!! Nock Infinite Loop") ∧
    (∀ (fuel u : Nat), compute (fuel + 1) (.Atom u) = .err "!! Nock Infinite Loop") :=
  ⟨fun _ _ _ => rfl, fun _ _ => rfl⟩

/-- C1.  Concrete refutation of the opcode 6 if/then/else property on the
code: with subject `0`, condition `b = [1 0]` (which evaluates to `Atom 0`)
and branches `c = [1 11]`, `d = [1 22]`, the formula `[6 b c d]` does not
evaluate to the result of `c` (`Atom 11`) but to a six-element cell, at
every recursion budget; the cause is that the opcode 2 arm evaluates its
tail only once instead of twice, so the selected branch is never applied.
The `Atom 1` condition likewise fails to select `d`. -/
theorem c1_op6_if_then_else_code_bug :
    mkCell [atom 6, Noun.Cell [atom 1, atom 0], Noun.Cell [atom 1, atom 11],
        Noun.Cell [atom 1, atom 22]] =
      some (Noun.Cell [atom 6, Noun.Cell [atom 1, atom 0],
        Noun.Cell [atom 1, atom 11], atom 1, atom 22]) ∧
    (∀ g : Nat, nock (9 + g) (atom 0) (Noun.Cell [atom 1, atom 0]) = .ok (atom 0)) ∧
    (∀ g : Nat, nock (9 + g) (atom 0) (Noun.Cell [atom 1, atom 11]) = .ok (atom 11)) ∧
    (∀ g : Nat, nock (30 + g) (atom 0) (Noun.Cell [atom 6, Noun.Cell [atom 1, atom 0],
        Noun.Cell [atom 1, atom 11], atom 1, atom 22]) =
      .ok (Noun.Cell [atom 0,
        Noun.Cell [Noun.Cell [atom 1, atom 11], atom 1, atom 22],
        atom 0, Noun.Cell [atom 2, atom 3], atom 0, atom 2])) ∧
    (∀ g : Nat, nock (30 + g) (atom 0) (Noun.Cell [atom 6, Noun.Cell [atom 1, atom 0],
        Noun.Cell [atom 1, atom 11], atom 1, atom 22]) ≠ .ok (atom 11)) ∧
    (∀ g : Nat, nock (9 + g) (atom 0) (Noun.Cell [atom 1, atom 1]) = .ok (atom 1)) ∧
    (∀ g : Nat, nock (9 + g) (atom 0) (Noun.Cell [atom 1, atom 22]) = .ok (atom 22)) ∧
    (∀ g : Nat, nock (30 + g) (atom 0) (Noun.Cell [atom 6, Noun.Cell [atom 1, atom 1],
        Noun.Cell [atom 1, atom 11], atom 1, atom 22]) ≠ .ok (atom 22)) := by
  refine ⟨by decide,
    fun g => @nock_mono_le 9 (9 + g) (by omega) _ _ _ (by decide),
    fun g => @nock_mono_le 9 (9 + g) (by omega) _ _ _ (by decide),
    fun g => @nock_mono_le 30 (30 + g) (by omega) _ _ _ (by decide),
    fun g => ?_,
    fun g => @nock_mono_le 9 (9 + g) (by omega) _ _ _ (by decide),
    fun g => @nock_mono_le 9 (9 + g) (by omega) _ _ _ (by decide),
    fun g => ?_⟩
  · rw [show nock (30 + g) (atom 0) (Noun.Cell [atom 6, Noun.Cell [atom 1, atom 0],
        Noun.Cell [atom 1, atom 11], atom 1, atom 22]) =
      .ok (Noun.Cell [atom 0,
        Noun.Cell [Noun.Cell [atom 1, atom 11], atom 1, atom 22],
        atom 0, Noun.Cell [atom 2, atom 3], atom 0, atom 2])
      from @nock_mono_le 30 (30 + g) (by omega) _ _ _ (by decide)]
    decide
  · rw [show nock (30 + g) (atom 0) (Noun.Cell [atom 6, Noun.Cell [atom 1, atom 1],
        Noun.Cell [atom 1, atom 11], atom 1, atom 22]) =
      .ok (Noun.Cell [atom 0,
        Noun.Cell [Noun.Cell [atom 1, atom 11], atom 1, atom 22],
        atom 0, Noun.Cell [atom 2, atom 3], atom 0, atom 3])
      from @nock_mono_le 30 (30 + g) (by omega) _ _ _ (by decide)]
    decide

/-- Fuel monotonicity of the parser: a successful parse at some fuel is
stable under extra fuel, so it is the result of the Rust recursion, which
terminates by consuming tokens. -/
theorem parse_mono (f : Nat) :
    (∀ toks n ts2, parseF f toks = .ok (n, ts2) → parseF (f + 1) toks = .ok (n, ts2)) ∧
    (∀ toks n ts2, parseCellF f toks = .ok (n, ts2) →
      parseCellF (f + 1) toks = .ok (n, ts2)) ∧
    (∀ acc toks l2 ts2, parseLoopF f acc toks = .ok (l2, ts2) →
      parseLoopF (f + 1) acc toks = .ok (l2, ts2)) := by
  induction f with
  | zero =>
      exact ⟨fun _ _ _ h => Except.noConfusion h,
        fun _ _ _ h => Except.noConfusion h,
        fun _ _ _ _ h => Except.noConfusion h⟩
  | succ f ih =>
      obtain ⟨ihP, ihC, ihL⟩ := ih
      refine ⟨?_, ?_, ?_⟩
      · intro toks n ts2 h
        match toks with
        | [] => exact Except.noConfusion h
        | t :: ts =>
            rw [show parseF (f + 1) (t :: ts) =
              (if isAtomTok t = true then
                match parse_atomN t with
                | .ok n => .ok (n, ts)
                | .error e => .error e
              else if isCellStartTok t = true then parseCellF f ts
              else .error "Unhandled Token!") from rfl] at h
            rw [show parseF (f + 1 + 1) (t :: ts) =
              (if isAtomTok t = true then
                match parse_atomN t with
                | .ok n => .ok (n, ts)
                | .error e => .error e
              else if isCellStartTok t = true then parseCellF (f + 1) ts
              else .error "Unhandled Token!") from rfl]
            by_cases hA : isAtomTok t = true
            · rw [if_pos hA] at h
              rw [if_pos hA]
              exact h
            · rw [if_neg hA] at h
              rw [if_neg hA]
              by_cases hS : isCellStartTok t = true
              · rw [if_pos hS] at h
                rw [if_pos hS]
                exact ihC ts n ts2 h
              · rw [if_neg hS] at h
                exact absurd h (by simp)
      · intro toks n ts2 h
        rw [show parseCellF (f + 1) toks =
          (match parseF f toks with
           | .error e => .error e
           | .ok (n, ts) =>
               match parseLoopF f [n] ts with
               | .error e => .error e
               | .ok (list, ts3) => .ok (.Cell list, ts3)) from rfl] at h
        rw [show parseCellF (f + 1 + 1) toks =
          (match parseF (f + 1) toks with
           | .error e => .error e
           | .ok (n, ts) =>
               match parseLoopF (f + 1) [n] ts with
               | .error e => .error e
               | .ok (list, ts3) => .ok (.Cell list, ts3)) from rfl]
        match hp : parseF f toks with
        | .error e => rw [hp] at h; exact Except.noConfusion h
        | .ok (n1, ts1) =>
            rw [hp] at h
            rw [ihP toks n1 ts1 hp]
            show (match parseLoopF (f + 1) [n1] ts1 with
              | Except.error e => (Except.error e : Except String (Noun × List (List Char)))
              | Except.ok (list, ts3) => Except.ok (Noun.Cell list, ts3)) =
              Except.ok (n, ts2)
            have h2 : (match parseLoopF f [n1] ts1 with
              | Except.error e => (Except.error e : Except String (Noun × List (List Char)))
              | Except.ok (list, ts3) => Except.ok (Noun.Cell list, ts3)) =
              Except.ok (n, ts2) := h
            match hl : parseLoopF f [n1] ts1 with
            | .error e => rw [hl] at h2; exact Except.noConfusion h2
            | .ok (list, ts3) =>
                rw [hl] at h2
                rw [ihL [n1] ts1 list ts3 hl]
                exact h2
      · intro acc toks l2 ts2 h
        match toks with
        | [] => exact Except.noConfusion h
        | t :: ts =>
            rw [show parseLoopF (f + 1) acc (t :: ts) =
              (if isAtomTok t = true then
                match parse_atomN t with
                | .error e => .error e
                | .ok n => parseLoopF f (acc ++ [n]) ts
              else if isCellStartTok t = true then
                match parseCellF f ts with
                | .error e => .error e
                | .ok (n, ts3) => parseLoopF f (acc ++ [n]) ts3
              else if isCellEndTok t = true then
                match Noun.flatten acc with
                | none => .error "flatten panic"
                | some fl => .ok (fl, ts)
              else parseLoopF f acc ts) from rfl] at h
            rw [show parseLoopF (f + 1 + 1) acc (t :: ts) =
              (if isAtomTok t = true then
                match parse_atomN t with
                | .error e => .error e
                | .ok n => parseLoopF (f + 1) (acc ++ [n]) ts
              else if isCellStartTok t = true then
                match parseCellF (f + 1) ts with
                | .error e => .error e
                | .ok (n, ts3) => parseLoopF (f + 1) (acc ++ [n]) ts3
              else if isCellEndTok t = true then
                match Noun.flatten acc with
                | none => .error "flatten panic"
                | some fl => .ok (fl, ts)
              else parseLoopF (f + 1) acc ts) from rfl]
            by_cases hA : isAtomTok t = true
            · rw [if_pos hA] at h
              rw [if_pos hA]
              match hpa : parse_atomN t with
              | .error e => rw [hpa] at h; exact Except.noConfusion h
              | .ok n1 =>
                  rw [hpa] at h
                  exact ihL (acc ++ [n1]) ts l2 ts2 h
            · rw [if_neg hA] at h
              rw [if_neg hA]
              by_cases hS : isCellStartTok t = true
              · rw [if_pos hS] at h
                rw [if_pos hS]
                match hc : parseCellF f ts with
                | .error e => rw [hc] at h; exact Except.noConfusion h
                | .ok (n1, ts3) =>
                    rw [hc] at h
                    rw [ihC ts n1 ts3 hc]
                    exact ihL (acc ++ [n1]) ts3 l2 ts2 h
              · rw [if_neg hS] at h
                rw [if_neg hS]
                by_cases hE : isCellEndTok t = true
                · rw [if_pos hE] at h
                  rw [if_pos hE]
                  exact h
                · rw [if_neg hE] at h
                  rw [if_neg hE]
                  exact ihL acc ts l2 ts2 h

/-- Fuel monotonicity of `parseF`, between any two fuels. -/
theorem parseF_mono_le {f g : Nat} (hfg : f ≤ g) (toks : List (List Char))
    (n : Noun) (ts2 : List (List Char)) (h : parseF f toks = .ok (n, ts2)) :
    parseF g toks = .ok (n, ts2) := by
  induction g with
  | zero =>
      have : f = 0 := by omega
      subst this
      exact h
  | succ g ihg =>
      rcases Nat.lt_or_ge f (g + 1) with hlt | hge
      · exact (parse_mono g).1 toks n ts2 (ihg (by omega))
      · have : f = g + 1 := by omega
        subst this
        exact h

/-- C3.  The input `[5]` — a bracketed single atom — is not rejected:
tokenizing and parsing it succeeds and returns the one-element cell
`Cell([Atom 5])`, violating the documented invariant that a cell never has
fewer than two elements. -/
theorem c3_singleton_cell_parse_code_bug :
    tokenize ['[', '5', ']'] = .ok [['['], ['5'], [']']] ∧
    (∀ g : Nat, parseF (9 + g) [['['], ['5'], [']']] = .ok (Noun.Cell [atom 5], [])) ∧
    Noun.cellsWfB (Noun.Cell [atom 5]) = false := by
  refine ⟨by decide, fun g => @parseF_mono_le 9 (9 + g) (by omega) _ _ _ (by decide),
    by decide⟩

theorem opsOfCell_append (xs ys : List Noun) (hys : ys ≠ []) :
    opsOfCell (xs ++ ys) = opsHeadList xs ++ opsOfCell ys := by
  induction xs with
  | nil => simp [opsHeadList]
  | cons x xs ih =>
      match h : xs ++ ys with
      | [] => exact absurd (List.append_eq_nil.mp h).2 hys
      | z :: zs =>
          simp only [List.cons_append, h, opsOfCell, opsHeadList, List.append_assoc]
          rw [← h, ih]

theorem mkCell_is_cell (xs : List Noun) (F : Noun) (h : mkCell xs = some F) :
    ∃ l, F = Noun.Cell l := by
  unfold mkCell at h
  cases hf : Noun.flatten xs with
  | none => rw [hf] at h; simp at h
  | some l => rw [hf] at h; simp at h; exact ⟨l, h.symm⟩

theorem opcodes_mkCell (xs : List Noun) (z : Noun) (F : Noun)
    (h : mkCell (xs ++ [z]) = some F) :
    opcodes F = opsHeadList xs ++ opsTail z := by
  unfold mkCell Noun.flatten at h
  rw [List.getLast?_concat] at h
  match z with
  | .Atom u =>
      simp only [Option.map_some] at h
      cases h
      simp only [opcodes]
      rw [opsOfCell_append xs [.Atom u] (by simp)]
      rfl
  | .Cell [] => simp at h
  | .Cell (l0 :: ls) =>
      simp only [List.dropLast_concat, Option.map_some] at h
      cases h
      simp only [opcodes]
      rw [opsOfCell_append xs (l0 :: ls) (by simp)]
      rfl

theorem opsHead_of_mkCell (xs : List Noun) (F : Noun) (h : mkCell xs = some F) :
    opsHead F = opcodes F := by
  obtain ⟨l, rfl⟩ := mkCell_is_cell xs F h
  rfl

/-- C2 counterexample.  The opcode 10 cell-hint arm constructs the formula
`[8 c 7 [0 3] d]` — at concrete operands `c = d = Atom 0` this is built
successfully and contains opcode 8, which is not among `{0,1,2,3,4,5,7}`. -/
theorem c2_macro_opcode_counterexample :
    macro10F (atom 0) (atom 0) =
      some (Noun.Cell [atom 8, atom 0, atom 7, Noun.Cell [atom 0, atom 3], atom 0]) ∧
    8 ∈ opcodes (Noun.Cell [atom 8, atom 0, atom 7, Noun.Cell [atom 0, atom 3], atom 0]) ∧
    (8 : Nat) ∉ ([0, 1, 2, 3, 4, 5, 7] : List Nat) := by
  decide

/-- C2 (amended).  Beyond the opcodes contributed by the embedded operands,
the formulas constructed by the macro dispatch arms contain only opcodes
from `{0,1,2,4}` (opcode 6), `{1,2}` (opcode 7), `{0,1,7}` (opcode 8) and
`{0,2,7}` (opcode 9) — all primitive or opcode 7, as claimed — while the
opcode 10 cell-hint arm introduces exactly `{0,7,8}` and its formula always
contains macro opcode 8 (no arm introduces opcode 9 or 10; the opcode 10
atom-hint arm constructs no formula at all). -/
theorem c2_macro_opcode_amended (b c d : Noun) :
    (∀ F, macro6F b c d = some F → ∀ k ∈ opcodes F,
      k ∈ ([0, 1, 2, 4] : List Nat) ∨ k ∈ opsHead c ∨ k ∈ opsTail d ∨ k ∈ opsTail b) ∧
    (∀ F, macro7F b c = some F → ∀ k ∈ opcodes F,
      k ∈ ([1, 2] : List Nat) ∨ k ∈ opsHead b ∨ k ∈ opsTail c) ∧
    (∀ F, macro8F b c = some F → ∀ k ∈ opcodes F,
      k ∈ ([0, 1, 7] : List Nat) ∨ k ∈ opsTail b ∨ k ∈ opsTail c) ∧
    (∀ F, macro9F b c = some F → ∀ k ∈ opcodes F,
      k ∈ ([0, 2, 7] : List Nat) ∨ k ∈ opsHead c ∨ k ∈ opsTail b) ∧
    (∀ F, macro10F c d = some F →
      8 ∈ opcodes F ∧ ∀ k ∈ opcodes F,
        k ∈ ([0, 7, 8] : List Nat) ∨ k ∈ opsHead c ∨ k ∈ opsTail d) := by
  refine ⟨?_, ?_, ?_, ?_, ?_⟩
  · intro F h
    have hdef : macro6F b c d =
        (mkCell [atom 1, c, d]).bind fun q =>
        mkCell [atom 2, Noun.Cell [atom 0, atom 1], atom 2, q,
          Noun.Cell [atom 1, atom 0], atom 2,
          Noun.Cell [atom 1, atom 2, atom 3], Noun.Cell [atom 1, atom 0],
          atom 4, atom 4, b] := rfl
    rw [hdef] at h
    cases hq : mkCell [atom 1, c, d] with
    | none => rw [hq] at h; exact absurd h (by simp)
    | some q =>
        rw [hq] at h
        simp only [Option.some_bind] at h
        have hqops := opcodes_mkCell [atom 1, c] d q hq
        have hqhead := opsHead_of_mkCell [atom 1, c, d] q hq
        have hops := opcodes_mkCell [atom 2, Noun.Cell [atom 0, atom 1], atom 2, q,
          Noun.Cell [atom 1, atom 0], atom 2, Noun.Cell [atom 1, atom 2, atom 3],
          Noun.Cell [atom 1, atom 0], atom 4, atom 4] b F h
        intro k hk
        rw [hops] at hk
        simp only [atom, opsHeadList, opsHead, opsOfCell, opsTail,
          List.mem_append, List.mem_cons, List.not_mem_nil,
          List.append_nil, or_false, false_or] at hk
        rw [hqhead, hqops] at hk
        simp only [atom, opsHeadList, opsHead, List.mem_append, List.mem_cons,
          List.not_mem_nil, List.append_nil, or_false, false_or] at hk
        simp only [List.mem_cons, List.not_mem_nil, or_false]
        tauto
  · intro F h
    unfold macro7F at h
    have hops := opcodes_mkCell [atom 2, b, atom 1] c F h
    intro k hk
    rw [hops] at hk
    simp only [atom, opsHeadList, opsHead, List.mem_append, List.mem_cons,
      List.not_mem_nil, List.append_nil, or_false, false_or] at hk
    simp only [List.mem_cons, List.not_mem_nil, or_false]
    tauto
  · intro F h
    have hdef : macro8F b c =
        (mkCell [atom 7, Noun.Cell [atom 0, atom 1], b]).bind fun i2 =>
        (mkCell [i2, atom 0, atom 1]).bind fun i3 =>
        mkCell [atom 7, i3, c] := rfl
    rw [hdef] at h
    cases h2 : mkCell [atom 7, Noun.Cell [atom 0, atom 1], b] with
    | none => rw [h2] at h; exact absurd h (by simp)
    | some i2 =>
        rw [h2] at h
        simp only [Option.some_bind] at h
        cases h3 : mkCell [i2, atom 0, atom 1] with
        | none => rw [h3] at h; exact absurd h (by simp)
        | some i3 =>
            rw [h3] at h
            simp only [Option.some_bind] at h
            have h2ops := opcodes_mkCell [atom 7, Noun.Cell [atom 0, atom 1]] b i2 h2
            have h2head := opsHead_of_mkCell _ _ h2
            have h3ops := opcodes_mkCell [i2, atom 0] (atom 1) i3 h3
            have h3head := opsHead_of_mkCell _ _ h3
            have hops := opcodes_mkCell [atom 7, i3] c F h
            intro k hk
            rw [hops] at hk
            simp only [atom, opsHeadList, opsHead, List.mem_append, List.mem_cons,
              List.not_mem_nil, List.append_nil, or_false, false_or] at hk
            rw [h3head, h3ops] at hk
            simp only [atom, opsHeadList, opsHead, List.mem_append] at hk
            rw [h2head, h2ops] at hk
            simp only [atom, opsHeadList, opsHead, opsTail, opsOfCell,
              List.mem_append, List.mem_cons, List.not_mem_nil,
              List.append_nil, or_false, false_or] at hk
            simp only [List.mem_cons, List.not_mem_nil, or_false]
            tauto
  · intro F h
    have hdef : macro9F b c =
        mkCell [atom 7, c, atom 2, Noun.Cell [atom 0, atom 1], atom 0, b] := rfl
    rw [hdef] at h
    have hops := opcodes_mkCell [atom 7, c, atom 2, Noun.Cell [atom 0, atom 1],
      atom 0] b F h
    intro k hk
    rw [hops] at hk
    simp only [atom, opsHeadList, opsHead, opsOfCell, opsTail, List.mem_append,
      List.mem_cons, List.not_mem_nil, List.append_nil, or_false, false_or] at hk
    simp only [List.mem_cons, List.not_mem_nil, or_false]
    tauto
  · intro F h
    have hdef : macro10F c d =
        mkCell [atom 8, c, atom 7, Noun.Cell [atom 0, atom 3], d] := rfl
    rw [hdef] at h
    have hops := opcodes_mkCell [atom 8, c, atom 7, Noun.Cell [atom 0, atom 3]] d F h
    constructor
    · rw [hops]
      simp [atom, opsHeadList, opsHead]
    · intro k hk
      rw [hops] at hk
      simp only [atom, opsHeadList, opsHead, opsOfCell, opsTail, List.mem_append,
        List.mem_cons, List.not_mem_nil, List.append_nil, or_false,
        false_or] at hk
      simp only [List.mem_cons, List.not_mem_nil, or_false]
      tauto

/-- C2 witness: the opcode 6 subset conclusion at concrete operands and
opcode `2`, and the opcode 8 membership for the opcode 10 arm's formula. -/
theorem c2_macro_opcode_amended_witness :
    ((2 : Nat) ∈ ([0, 1, 2, 4] : List Nat) ∨ (2 : Nat) ∈ opsHead (atom 0) ∨
      (2 : Nat) ∈ opsTail (atom 0) ∨ (2 : Nat) ∈ opsTail (atom 0)) ∧
    8 ∈ opcodes (Noun.Cell [atom 8, atom 0, atom 7, Noun.Cell [atom 0, atom 3], atom 0]) :=
  ⟨(c2_macro_opcode_amended (atom 0) (atom 0) (atom 0)).1
      (Noun.Cell [atom 2, Noun.Cell [atom 0, atom 1], atom 2,
        Noun.Cell [atom 1, atom 0, atom 0], Noun.Cell [atom 1, atom 0], atom 2,
        Noun.Cell [atom 1, atom 2, atom 3], Noun.Cell [atom 1, atom 0],
        atom 4, atom 4, atom 0])
      (by decide) 2 (by decide),
   ((c2_macro_opcode_amended (atom 0) (atom 0) (atom 0)).2.2.2.2
      (Noun.Cell [atom 8, atom 0, atom 7, Noun.Cell [atom 0, atom 3], atom 0])
      (by decide)).1⟩

theorem mtpF_congr : ∀ f g a, a < f → a < g → mtpF f a = mtpF g a := by
  intro f
  induction f with
  | zero => intro g a hf; omega
  | succ f ih =>
      intro g a hf hg
      match g with
      | g + 1 =>
          simp only [mtpF]
          split
          · rfl
          · rw [ih g (a / 2) (by omega) (by omega)]

theorem mtpF_step (f a : Nat) (h : ¬ a / 2 ≤ 1) :
    mtpF (f + 1) a = mtpF f (a / 2) ++ [decide (a % 2 = 0)] := by
  simp only [mtpF]
  rw [if_neg h]

theorem make_tree_path_double (n : Nat) (hn : 2 ≤ n) :
    make_tree_path (2 * n) = make_tree_path n ++ [true] := by
  unfold make_tree_path
  rw [mtpF_step (2 * n) (2 * n) (by omega)]
  have h2 : 2 * n / 2 = n := by omega
  have h3 : 2 * n % 2 = 0 := by omega
  rw [h2, h3, mtpF_congr (2 * n) (n + 1) n (by omega) (by omega)]
  simp

theorem make_tree_path_double_succ (n : Nat) (hn : 2 ≤ n) :
    make_tree_path (2 * n + 1) = make_tree_path n ++ [false] := by
  unfold make_tree_path
  rw [mtpF_step (2 * n + 1) (2 * n + 1) (by omega)]
  have h2 : (2 * n + 1) / 2 = n := by omega
  have h3 : (2 * n + 1) % 2 = 1 := by omega
  rw [h2, h3, mtpF_congr (2 * n + 1) (n + 1) n (by omega) (by omega)]
  simp

theorem walkPath_concat (p : List Bool) (tb : Bool) (s : Noun) :
    walkPath (p ++ [tb]) s = (walkPath p s).bind (walkPath [tb]) := by
  induction p generalizing s with
  | nil => cases walkPath [tb] s <;> rfl
  | cons b p ih =>
      cases b with
      | true =>
          simp only [List.cons_append, walkPath]
          cases Noun.head s with
          | ok v => simp [Except.bind, ih v]
          | error e => simp [Except.bind]
      | false =>
          simp only [List.cons_append, walkPath]
          cases (Noun.tail s).bind slice_to_noun with
          | ok v => simp [Except.bind, ih v]
          | error e => simp [Except.bind]

theorem fas_eq_walk (s : Noun) (n : Nat) (hn : 2 ≤ n) :
    fas s n = walkPath (make_tree_path n) s := by
  unfold fas
  rw [if_neg (by omega), if_neg (by omega)]
  by_cases h2 : n = 2
  · subst h2
    rw [if_pos rfl]
    show Noun.head s = walkPath (mtpF 3 2) s
    simp only [mtpF]
    norm_num
    show Noun.head s = (Noun.head s).bind (walkPath [])
    cases Noun.head s <;> rfl
  · rw [if_neg h2]
    by_cases h3 : n = 3
    · subst h3
      rw [if_pos rfl]
      show (Noun.tail s).bind slice_to_noun = walkPath (mtpF 4 3) s
      simp only [mtpF]
      norm_num
      show (Noun.tail s).bind slice_to_noun =
        ((Noun.tail s).bind slice_to_noun).bind (walkPath [])
      cases (Noun.tail s).bind slice_to_noun <;> rfl
    · rw [if_neg h3]

/-- C5.  Whenever slot `n ≥ 1` of a subject is a cell of at least two
elements, slot `2n` is that cell's first element and slot `2n + 1` is the
remaining elements — as a single noun when there is exactly one, otherwise
as the cell of them. -/
theorem c5_fas_children (s : Noun) (n : Nat) (x y : Noun) (r : List Noun)
    (hn : 1 ≤ n) (h : fas s n = .ok (Noun.Cell (x :: y :: r))) :
    fas s (2 * n) = .ok x ∧
    fas s (2 * n + 1) = (if r = [] then .ok y else .ok (Noun.Cell (y :: r))) := by
  have hslice : slice_to_noun (y :: r) =
      (if r = [] then Except.ok y else .ok (Noun.Cell (y :: r))) := by
    cases r with
    | nil => rfl
    | cons z zs => rfl
  by_cases h1 : n = 1
  · subst h1
    have hs : s = Noun.Cell (x :: y :: r) := by
      have : fas s 1 = Except.ok s := rfl
      rw [this] at h
      exact (Except.ok.injEq _ _).mp h
    subst hs
    constructor
    · rfl
    · rw [← hslice]; rfl
  · have hn2 : 2 ≤ n := by omega
    have hw := fas_eq_walk s n hn2
    constructor
    · rw [fas_eq_walk s (2 * n) (by omega), make_tree_path_double n hn2,
        walkPath_concat, ← hw, h]
      rfl
    · rw [fas_eq_walk s (2 * n + 1) (by omega), make_tree_path_double_succ n hn2,
        walkPath_concat, ← hw, h, ← hslice]
      cases r <;> rfl

/-- C5 witness: with subject `[531 25 99]` and `n = 1`, the slots `2` and
`3` are the head `531` and the tail `[25 99]`. -/
theorem c5_fas_children_witness :
    fas (Noun.Cell [atom 531, atom 25, atom 99]) 2 = .ok (atom 531) ∧
    fas (Noun.Cell [atom 531, atom 25, atom 99]) 3 =
      (if ([atom 99] : List Noun) = [] then .ok (atom 25)
       else .ok (Noun.Cell [atom 25, atom 99])) := by
  have h := c5_fas_children (Noun.Cell [atom 531, atom 25, atom 99]) 1
    (atom 531) (atom 25) [atom 99] (by decide) (by decide)
  simpa using h

theorem Noun.size_pos : ∀ n : Noun, 1 ≤ Noun.size n
  | .Atom _ => le_refl 1
  | .Cell _ => Nat.le_add_right 1 _

theorem Noun.sizeList_pos : ∀ l : List Noun, 1 ≤ Noun.sizeList l
  | [] => le_refl 1
  | x :: xs => le_trans (Noun.sizeList_pos xs) (by simp [Noun.sizeList])

mutual

theorem cmpF_refl : ∀ (n : Noun), Noun.cellsWfB n = true →
    ∀ f, Noun.size n + Noun.size n + 1 ≤ f → cmpF f n [n] = atom 0
  | .Atom a, _, f, hf => by
      obtain ⟨f1, rfl⟩ : ∃ f1, f = f1 + 1 := ⟨f - 1, by omega⟩
      simp [cmpF]
  | .Cell l, h, f, hf => by
      have hh : 2 ≤ l.length ∧ Noun.cellsWfListB l = true := by
        simpa [Noun.cellsWfB] using h
      match l, hh.1, hh.2 with
      | x :: y :: ys, _, hwl =>
          have hsx := Noun.size_pos x
          have hsy := Noun.size_pos y
          have hsys := Noun.sizeList_pos ys
          simp only [Noun.size, Noun.sizeList] at hf
          obtain ⟨f2, rfl⟩ : ∃ f2, f = f2 + 2 := ⟨f - 2, by omega⟩
          have key : cmpF (f2 + 2) (Noun.Cell (x :: y :: ys)) [Noun.Cell (x :: y :: ys)] =
              cmpAllF f2 (x :: y :: ys) (x :: y :: ys) := by
            cases x <;> simp [cmpF]
          rw [key]
          refine cmpAllF_refl (x :: y :: ys) hwl f2 ?_
          simp only [Noun.sizeList]
          omega

theorem cmpAllF_refl : ∀ (l : List Noun), Noun.cellsWfListB l = true →
    ∀ f, Noun.sizeList l + Noun.sizeList l ≤ f → cmpAllF f l l = atom 0
  | [], _, f, hf => by
      obtain ⟨f1, rfl⟩ : ∃ f1, f = f1 + 1 := ⟨f - 1, by simp [Noun.sizeList] at hf; omega⟩
      rfl
  | x :: xs, h, f, hf => by
      have hh : Noun.cellsWfB x = true ∧ Noun.cellsWfListB xs = true := by
        simpa [Noun.cellsWfListB] using h
      have hxs := Noun.sizeList_pos xs
      have hx := Noun.size_pos x
      simp only [Noun.sizeList] at hf
      obtain ⟨f1, rfl⟩ : ∃ f1, f = f1 + 1 := ⟨f - 1, by omega⟩
      have h1 : cmpF f1 x [x] = atom 0 :=
        cmpF_refl x hh.1 f1 (by omega)
      have e1 : cmpAllF (f1 + 1) (x :: xs) (x :: xs) =
          if cmpF f1 x [x] = atom 1 then atom 1 else cmpAllF f1 xs xs := rfl
      rw [e1, h1, if_neg (by simp [atom])]
      exact cmpAllF_refl xs hh.2 f1 (by omega)

end

/-- C10.  Structural equality is reflexive: for every noun whose cells all
have at least two elements, the opcode 5 comparison of the cell `[n n]`
judges the two copies equal, returning `Atom 0`. -/
theorem c10_tis_reflexive (n : Noun) (h : Noun.cellsWfB n = true) :
    tis (Noun.Cell [n, n]) = .ok (atom 0) := by
  have e : tis (Noun.Cell [n, n]) = .ok (cmp_noun n [n]) := rfl
  rw [e]
  unfold cmp_noun
  rw [cmpF_refl n h (Noun.size n + Noun.sizeList [n]) (by simp [Noun.sizeList]; omega)]

/-- C10 witness: the cell `[[1 2] [1 2]]` compares equal to itself. -/
theorem c10_tis_reflexive_witness :
    tis (Noun.Cell [Noun.Cell [atom 1, atom 2], Noun.Cell [atom 1, atom 2]]) =
      .ok (atom 0) :=
  c10_tis_reflexive (Noun.Cell [atom 1, atom 2]) (by decide)

theorem digitChar_isDigit (d : Nat) (h : d < 10) : (Nat.digitChar d).isDigit = true := by
  interval_cases d <;> decide

theorem digitChar_toNat (d : Nat) (h : d < 10) : (Nat.digitChar d).toNat - 48 = d := by
  interval_cases d <;> decide

theorem isDigit_not_ws (c : Char) (h : c.isDigit = true) : isWS c = false := by
  simp only [isWS, Bool.or_eq_false_iff, decide_eq_false_iff_not]
  refine ⟨⟨⟨?_, ?_⟩, ?_⟩, ?_⟩ <;> rintro rfl <;> simp at h

theorem isDigit_not_dot (c : Char) (h : c.isDigit = true) : c ≠ '.' := by
  rintro rfl; simp at h

theorem isDigit_not_brackets (c : Char) (h : c.isDigit = true) :
    (c = '[' || c = ']') = false := by
  simp only [Bool.or_eq_false_iff, decide_eq_false_iff_not]
  constructor <;> rintro rfl <;> simp at h

theorem natChars_ne_nil (u : Nat) : natChars u ≠ [] := by
  unfold natChars
  split
  · simp
  · simp [Nat.digits_ne_nil_iff_ne_zero, *]

theorem natChars_all_digit (u : Nat) : ∀ c ∈ natChars u, c.isDigit = true := by
  unfold natChars
  split
  · intro c hc
    simp at hc
    subst hc
    decide
  · intro c hc
    simp only [List.mem_map, List.mem_reverse] at hc
    obtain ⟨d, hd, rfl⟩ := hc
    exact digitChar_isDigit d (Nat.digits_lt_base (by norm_num) hd)

theorem isAtomTok_natChars (u : Nat) : isAtomTok (natChars u) = true := by
  match h : natChars u with
  | [] => exact absurd h (natChars_ne_nil u)
  | c :: cs =>
      have hc : c.isDigit = true := natChars_all_digit u c (by rw [h]; simp)
      simp [isAtomTok, hc]

theorem foldl_map_digitChar (L : List Nat) (hL : ∀ d ∈ L, d < 10) :
    ∀ k : Nat, List.foldl (fun a c => 10 * a + (c.toNat - 48)) k (L.map Nat.digitChar) =
      List.foldl (fun a d => 10 * a + d) k L := by
  induction L with
  | nil => intro k; rfl
  | cons d L ih =>
      intro k
      simp only [List.map_cons, List.foldl_cons]
      rw [digitChar_toNat d (hL d (by simp))]
      exact ih (fun e he => hL e (by simp [he])) _

theorem foldl_reverse_ofDigits (L : List Nat) :
    ∀ k : Nat, List.foldl (fun a d => 10 * a + d) k L.reverse =
      k * 10 ^ L.length + Nat.ofDigits 10 L := by
  induction L with
  | nil => intro k; simp [Nat.ofDigits]
  | cons d L ih =>
      intro k
      simp only [List.reverse_cons, List.foldl_append, List.foldl_cons,
        List.foldl_nil, ih k, Nat.ofDigits_cons, List.length_cons]
      ring

theorem u64FromDigits_natChars (u : Nat) (h : u < 2 ^ 64) :
    u64FromDigits (natChars u) = some u := by
  have hfold : (natChars u).foldl (fun a c => 10 * a + (c.toNat - 48)) 0 = u := by
    unfold natChars
    split
    · subst u; rfl
    · rw [foldl_map_digitChar _
        (fun d hd => Nat.digits_lt_base (by norm_num) (List.mem_reverse.mp hd)),
        foldl_reverse_ofDigits]
      simp [Nat.ofDigits_digits]
  have hall : (natChars u).all Char.isDigit = true := by
    rw [List.all_eq_true]
    exact natChars_all_digit u
  match hn : natChars u with
  | [] => exact absurd hn (natChars_ne_nil u)
  | c :: cs =>
      rw [hn] at hfold hall
      unfold u64FromDigits
      rw [hall]
      simp only [if_true, hfold]
      rw [if_pos h]

/-- Boundary characters that may legally follow a rendered noun: nothing,
a space, or a closing bracket. -/
def headOk : List Char → Prop
  | [] => True
  | c :: _ => c = ' ' ∨ c = ']'

theorem gobble_digits (ds : List Char) (hd : ∀ c ∈ ds, c.isDigit = true) :
    ∀ acc rest, gobble acc (ds ++ rest) = gobble (acc ++ ds) rest := by
  induction ds with
  | nil => intro acc rest; simp
  | cons c ds ih =>
      intro acc rest
      have hc : c.isDigit = true := hd c (by simp)
      have h1 : ¬ (isWS c = true) := by simp [isDigit_not_ws c hc]
      have h2 : ¬ (c = '.') := isDigit_not_dot c hc
      show gobble acc (c :: (ds ++ rest)) = _
      simp only [gobble, if_neg h1, if_neg h2, if_pos hc]
      rw [ih (fun e he => hd e (by simp [he])) (acc ++ [c]) rest]
      simp

theorem tokenize_ws (r : List Char) : tokenize (' ' :: r) = tokenize r := by
  show tokenizeF (r.length + 1 + 1) (' ' :: r) = tokenize r
  rw [show tokenizeF (r.length + 1 + 1) (' ' :: r) = tokenizeF (r.length + 1) r from rfl]
  rfl

theorem tokenize_close (r : List Char) :
    tokenize (']' :: r) =
      match tokenize r with
      | .ok ts => .ok ([']'] :: ts)
      | .error e => .error e := by
  show tokenizeF (r.length + 1 + 1) (']' :: r) = _
  rw [show tokenizeF (r.length + 1 + 1) (']' :: r) =
    (match tokenizeF (r.length + 1) r with
      | .ok ts => Except.ok ([']'] :: ts)
      | .error e => .error e) from rfl]
  rfl

theorem tokenize_open (r : List Char) :
    tokenize ('[' :: r) =
      match tokenize r with
      | .ok ts => .ok (['['] :: ts)
      | .error e => .error e := by
  show tokenizeF (r.length + 1 + 1) ('[' :: r) = _
  rw [show tokenizeF (r.length + 1 + 1) ('[' :: r) =
    (match tokenizeF (r.length + 1) r with
      | .ok ts => Except.ok (['['] :: ts)
      | .error e => .error e) from rfl]
  rfl

theorem tokenize_digits (u : Nat) (rest : List Char) (ts : List (List Char))
    (hb : headOk rest) (ht : tokenize rest = .ok ts) :
    tokenize (natChars u ++ rest) = .ok (natChars u :: ts) := by
  match hn : natChars u with
  | [] => exact absurd hn (natChars_ne_nil u)
  | c :: cs =>
      have hcd : c.isDigit = true := natChars_all_digit u c (by rw [hn]; simp)
      have hcs : ∀ e ∈ cs, e.isDigit = true :=
        fun e he => natChars_all_digit u e (by rw [hn]; simp [he])
      show tokenizeF ((c :: (cs ++ rest)).length + 1) (c :: (cs ++ rest)) = _
      simp only [tokenizeF, List.length_cons]
      rw [if_neg (by rw [isDigit_not_brackets c hcd]; simp),
        if_pos (by simp [hcd])]
      have hg : gobble [c] (cs ++ rest) = gobble (c :: cs) rest := by
        rw [gobble_digits cs hcs [c] rest]
        rfl
      rw [hg]
      cases rest with
      | nil =>
          have hts : ts = [] := by
            have h0 : tokenize [] = Except.ok [] := rfl
            rw [h0] at ht
            exact ((Except.ok.injEq _ _).mp ht).symm
          subst hts
          rw [show gobble (c :: cs) [] = (c :: cs, []) from rfl]
          rfl
      | cons c2 r =>
          have hb' : c2 = ' ' ∨ c2 = ']' := hb
          rcases hb' with rfl | rfl
          · rw [show gobble (c :: cs) (' ' :: r) = (c :: cs, r) from rfl]
            rw [tokenize_ws] at ht
            rw [tokenizeF_eq_tokenize ((cs ++ ' ' :: r).length + 1) r (by simp; omega), ht]
          · rw [show gobble (c :: cs) (']' :: r) = (c :: cs, ']' :: r) by
              have h1 : ¬ (isWS ']' = true) := by decide
              have h2 : ¬ (']' = '.') := by decide
              have h3 : ¬ (Char.isDigit ']' = true) := by decide
              simp only [gobble, if_neg h1, if_neg h2, if_neg h3]]
            rw [tokenizeF_eq_tokenize ((cs ++ ']' :: r).length + 1) (']' :: r)
              (by simp; omega), ht]

theorem headOk_renderRest (xs : List Noun) (rest : List Char) :
    headOk (renderRest xs ++ ']' :: rest) := by
  cases xs with
  | nil => exact Or.inr rfl
  | cons y ys => exact Or.inl rfl

mutual

theorem tokenize_render : ∀ (n : Noun) (rest : List Char) (ts : List (List Char)),
    headOk rest → tokenize rest = .ok ts →
    tokenize (render n ++ rest) = .ok (toksOf n ++ ts)
  | .Atom u, rest, ts, hb, ht => by
      simpa [render, toksOf] using tokenize_digits u rest ts hb ht
  | .Cell [], rest, ts, _, ht => by
      show tokenize (']' :: rest) = _
      rw [tokenize_close rest, ht]
      rfl
  | .Cell (x :: xs), rest, ts, _, ht => by
      have h1 : tokenize (']' :: rest) = .ok ([']'] :: ts) := by
        rw [tokenize_close rest, ht]
      have h2 := tokenize_renderRest xs rest ([']'] :: ts) h1
      have h3 := tokenize_render x (renderRest xs ++ ']' :: rest)
        (toksRest xs ++ [']'] :: ts) (headOk_renderRest xs rest) h2
      rw [show render (Noun.Cell (x :: xs)) ++ rest =
        '[' :: (render x ++ (renderRest xs ++ (']' :: rest))) by simp [render]]
      rw [tokenize_open, h3]
      simp [toksOf]

theorem tokenize_renderRest : ∀ (xs : List Noun) (rest : List Char)
    (ts : List (List Char)), tokenize (']' :: rest) = .ok ts →
    tokenize (renderRest xs ++ ']' :: rest) = .ok (toksRest xs ++ ts)
  | [], rest, ts, ht => by simpa [renderRest, toksRest] using ht
  | y :: ys, rest, ts, ht => by
      have h2 := tokenize_renderRest ys rest ts ht
      have h3 := tokenize_render y (renderRest ys ++ ']' :: rest)
        (toksRest ys ++ ts) (headOk_renderRest ys rest) h2
      rw [show renderRest (y :: ys) ++ ']' :: rest =
        ' ' :: (render y ++ (renderRest ys ++ ']' :: rest)) by simp [renderRest]]
      rw [tokenize_ws, h3]
      simp [toksRest]

end

theorem wfListB_mem : ∀ l, Noun.wfListB l = true → ∀ y ∈ l, Noun.wfB y = true := by
  intro l
  induction l with
  | nil => intro _ y hy; simp at hy
  | cons x xs ih =>
      intro h y hy
      rw [show Noun.wfListB (x :: xs) = (Noun.wfB x && Noun.wfListB xs) from rfl] at h
      simp only [Bool.and_eq_true] at h
      rcases List.mem_cons.mp hy with rfl | hy2
      · exact h.1
      · exact ih h.2 _ hy2

theorem flatListB_head : ∀ x xs, Noun.flatListB (x :: xs) = true → Noun.flatB x = true := by
  intro x xs h
  cases xs with
  | nil =>
      cases x with
      | Atom u => rfl
      | Cell l => simp [Noun.flatListB] at h
  | cons y ys =>
      rw [show Noun.flatListB (x :: y :: ys) = (Noun.flatB x && Noun.flatListB (y :: ys))
        from rfl] at h
      simp only [Bool.and_eq_true] at h
      exact h.1

theorem flatListB_tail : ∀ x y ys, Noun.flatListB (x :: y :: ys) = true →
    Noun.flatListB (y :: ys) = true := by
  intro x y ys h
  rw [show Noun.flatListB (x :: y :: ys) = (Noun.flatB x && Noun.flatListB (y :: ys))
    from rfl] at h
  simp only [Bool.and_eq_true] at h
  exact h.2

theorem flatListB_mem : ∀ l, Noun.flatListB l = true → ∀ y ∈ l, Noun.flatB y = true := by
  intro l
  induction l with
  | nil => intro _ y hy; simp at hy
  | cons x xs ih =>
      intro h y hy
      rcases List.mem_cons.mp hy with rfl | hy2
      · exact flatListB_head _ _ h
      · cases xs with
        | nil => simp at hy2
        | cons z zs => exact ih (flatListB_tail x z zs h) y hy2

theorem flatListB_getLast : ∀ l, Noun.flatListB l = true →
    ∀ ys, l.getLast? ≠ some (Noun.Cell ys) := by
  intro l
  induction l with
  | nil => intro _ ys; simp
  | cons x xs ih =>
      intro h ys
      cases xs with
      | nil =>
          cases x with
          | Atom u => simp
          | Cell m => simp [Noun.flatListB] at h
      | cons z zs =>
          rw [List.getLast?_cons_cons]
          exact ih (flatListB_tail x z zs h) ys

theorem flatten_self (l : List Noun) (h : Noun.flatListB l = true) :
    Noun.flatten l = some l := by
  unfold Noun.flatten
  cases hl : l.getLast? with
  | none => rfl
  | some x =>
      cases x with
      | Atom u => rfl
      | Cell ys => exact absurd hl (flatListB_getLast l h ys)

mutual

theorem parseF_toksOf : ∀ (n : Noun), Noun.wfB n = true → Noun.flatB n = true →
    ∀ (f : Nat) (ts : List (List Char)), 2 * Noun.size n ≤ f →
    parseF f (toksOf n ++ ts) = .ok (n, ts)
  | .Atom u, hwf, _, f, ts, hf => by
      have hu : u < 2 ^ 64 := by simpa [Noun.wfB] using hwf
      obtain ⟨f1, rfl⟩ : ∃ f1, f = f1 + 1 :=
        ⟨f - 1, by simp [Noun.size] at hf; omega⟩
      show parseF (f1 + 1) (natChars u :: ts) = .ok (.Atom u, ts)
      have e1 : parseF (f1 + 1) (natChars u :: ts) =
          (if isAtomTok (natChars u) = true then
            match parse_atomN (natChars u) with
            | .ok n => .ok (n, ts)
            | .error e => .error e
          else if isCellStartTok (natChars u) = true then parseCellF f1 ts
          else .error "Unhandled Token!") := rfl
      rw [e1, if_pos (isAtomTok_natChars u)]
      have e2 : parse_atomN (natChars u) = .ok (.Atom u) := by
        unfold parse_atomN
        rw [u64FromDigits_natChars u hu]
      rw [e2]
  | .Cell [], hwf, _, _, _, _ => by
      simp [Noun.wfB] at hwf
  | .Cell (x :: xs), hwf, hfl, f, ts, hf => by
      have hs1 := Noun.size_pos x
      have hs2 := Noun.sizeList_pos xs
      simp only [Noun.size, Noun.sizeList] at hf
      obtain ⟨f1, rfl⟩ : ∃ f1, f = f1 + 1 := ⟨f - 1, by omega⟩
      show parseF (f1 + 1)
        ((['['] :: (toksOf x ++ toksRest xs ++ [[']']])) ++ ts) = _
      have e1 : parseF (f1 + 1)
          ((['['] :: (toksOf x ++ toksRest xs ++ [[']']])) ++ ts) =
          parseCellF f1 ((toksOf x ++ toksRest xs ++ [[']']]) ++ ts) := rfl
      rw [e1]
      rw [show (toksOf x ++ toksRest xs ++ [[']']]) ++ ts =
        toksOf x ++ (toksRest xs ++ ([']'] :: ts)) by simp]
      exact parseCellF_toksOf x xs hwf hfl f1 ts (by omega)
termination_by n _ _ f ts _ => 2 * Noun.size n
decreasing_by all_goals ((try simp only [Noun.size, Noun.sizeList]); omega)

theorem parseCellF_toksOf : ∀ (x : Noun) (xs : List Noun),
    Noun.wfB (Noun.Cell (x :: xs)) = true → Noun.flatB (Noun.Cell (x :: xs)) = true →
    ∀ (f : Nat) (ts : List (List Char)),
    2 * Noun.size x + 2 * Noun.sizeList xs + 1 ≤ f →
    parseCellF f (toksOf x ++ (toksRest xs ++ ([']'] :: ts))) =
      .ok (Noun.Cell (x :: xs), ts)
  | x, xs, hwf, hfl, f, ts, hf => by
      have hwl : Noun.wfListB (x :: xs) = true := by
        have : 2 ≤ (x :: xs).length ∧ Noun.wfListB (x :: xs) = true := by
          simpa [Noun.wfB] using hwf
        exact this.2
      have hfll : Noun.flatListB (x :: xs) = true := hfl
      obtain ⟨f1, rfl⟩ : ∃ f1, f = f1 + 1 := ⟨f - 1, by omega⟩
      have e1 : parseCellF (f1 + 1) (toksOf x ++ (toksRest xs ++ ([']'] :: ts))) =
          (match parseF f1 (toksOf x ++ (toksRest xs ++ ([']'] :: ts))) with
           | .error e => .error e
           | .ok (n, ts2) =>
               match parseLoopF f1 [n] ts2 with
               | .error e => .error e
               | .ok (list, ts3) => .ok (.Cell list, ts3)) := rfl
      rw [e1]
      have hx := parseF_toksOf x (wfListB_mem _ hwl x (by simp))
        (flatListB_head x xs hfll) f1 (toksRest xs ++ ([']'] :: ts)) (by omega)
      rw [hx]
      show (match parseLoopF f1 [x] (toksRest xs ++ ([']'] :: ts)) with
           | Except.error e => (Except.error e : Except String (Noun × List (List Char)))
           | Except.ok (list, ts3) => Except.ok (Noun.Cell list, ts3)) = _
      have hloop := parseLoopF_toksOf xs
        (fun y hy => ⟨wfListB_mem _ hwl y (by simp [hy]),
          flatListB_mem _ hfll y (by simp [hy])⟩)
        [x] (x :: xs) f1 ts (by omega)
        (by rw [show ([x] : List Noun) ++ xs = x :: xs from rfl]
            exact flatten_self _ hfll)
      rw [hloop]
termination_by x xs _ _ f ts _ => 2 * Noun.size x + 2 * Noun.sizeList xs + 1
decreasing_by all_goals ((try simp only [Noun.size, Noun.sizeList]); omega)

theorem parseLoopF_toksOf : ∀ (xs : List Noun),
    (∀ y ∈ xs, Noun.wfB y = true ∧ Noun.flatB y = true) →
    ∀ (acc fl : List Noun) (f : Nat) (ts : List (List Char)),
    2 * Noun.sizeList xs ≤ f →
    Noun.flatten (acc ++ xs) = some fl →
    parseLoopF f acc (toksRest xs ++ ([']'] :: ts)) = .ok (fl, ts)
  | [], _, acc, fl, f, ts, hf, hflat => by
      obtain ⟨f1, rfl⟩ : ∃ f1, f = f1 + 1 :=
        ⟨f - 1, by simp [Noun.sizeList] at hf; omega⟩
      show parseLoopF (f1 + 1) acc ([']'] :: ts) = _
      have e1 : parseLoopF (f1 + 1) acc ([']'] :: ts) =
          (match Noun.flatten acc with
           | none => .error "flatten panic"
           | some l2 => .ok (l2, ts)) := rfl
      rw [e1]
      rw [List.append_nil] at hflat
      rw [hflat]
  | .Atom u :: ys, hmem, acc, fl, f, ts, hf, hflat => by
      simp only [Noun.sizeList, Noun.size] at hf
      have hsys := Noun.sizeList_pos ys
      obtain ⟨f1, rfl⟩ : ∃ f1, f = f1 + 1 := ⟨f - 1, by omega⟩
      have hflat2 : Noun.flatten ((acc ++ [Noun.Atom u]) ++ ys) = some fl := by
        rw [← List.append_cons]
        exact hflat
      have hu : u < 2 ^ 64 := by
        simpa [Noun.wfB] using (hmem (.Atom u) (by simp)).1
      show parseLoopF (f1 + 1) acc
        (natChars u :: (toksRest ys ++ ([']'] :: ts))) = _
      have e1 : parseLoopF (f1 + 1) acc
          (natChars u :: (toksRest ys ++ ([']'] :: ts))) =
          (if isAtomTok (natChars u) = true then
            match parse_atomN (natChars u) with
            | .error e => .error e
            | .ok n => parseLoopF f1 (acc ++ [n]) (toksRest ys ++ ([']'] :: ts))
          else if isCellStartTok (natChars u) = true then
            match parseCellF f1 (toksRest ys ++ ([']'] :: ts)) with
            | .error e => .error e
            | .ok (n, ts2) => parseLoopF f1 (acc ++ [n]) ts2
          else if isCellEndTok (natChars u) = true then
            match Noun.flatten acc with
            | none => .error "flatten panic"
            | some l2 => .ok (l2, toksRest ys ++ ([']'] :: ts))
          else parseLoopF f1 acc (toksRest ys ++ ([']'] :: ts))) := rfl
      rw [e1, if_pos (isAtomTok_natChars u)]
      have e2 : parse_atomN (natChars u) = .ok (.Atom u) := by
        unfold parse_atomN
        rw [u64FromDigits_natChars u hu]
      rw [e2]
      show parseLoopF f1 (acc ++ [Noun.Atom u]) (toksRest ys ++ ([']'] :: ts)) = _
      exact parseLoopF_toksOf ys (fun z hz => hmem z (by simp [hz]))
        (acc ++ [.Atom u]) fl f1 ts (by omega) hflat2
  | .Cell [] :: ys, hmem, acc, fl, f, ts, hf, hflat => by
      have hwfy : Noun.wfB (.Cell []) = true := (hmem (.Cell []) (by simp)).1
      simp [Noun.wfB] at hwfy
  | .Cell (z :: zs) :: ys, hmem, acc, fl, f, ts, hf, hflat => by
      simp only [Noun.sizeList, Noun.size] at hf
      have hsys := Noun.sizeList_pos ys
      have hsz := Noun.size_pos z
      have hszs := Noun.sizeList_pos zs
      obtain ⟨f1, rfl⟩ : ∃ f1, f = f1 + 1 := ⟨f - 1, by omega⟩
      have hflat2 : Noun.flatten ((acc ++ [Noun.Cell (z :: zs)]) ++ ys) = some fl := by
        rw [← List.append_cons]
        exact hflat
      have hwfy : Noun.wfB (.Cell (z :: zs)) = true := (hmem (.Cell (z :: zs)) (by simp)).1
      have hfly : Noun.flatB (.Cell (z :: zs)) = true := (hmem (.Cell (z :: zs)) (by simp)).2
      rw [show toksRest (Noun.Cell (z :: zs) :: ys) ++ ([']'] :: ts) =
        ['['] :: ((toksOf z ++ toksRest zs ++ [[']']]) ++
          (toksRest ys ++ ([']'] :: ts))) by simp [toksRest, toksOf]]
      have e1 : parseLoopF (f1 + 1) acc
          (['['] :: ((toksOf z ++ toksRest zs ++ [[']']]) ++
            (toksRest ys ++ ([']'] :: ts)))) =
          (match parseCellF f1 ((toksOf z ++ toksRest zs ++ [[']']]) ++
              (toksRest ys ++ ([']'] :: ts))) with
           | .error e => .error e
           | .ok (n, ts2) => parseLoopF f1 (acc ++ [n]) ts2) := rfl
      rw [e1]
      rw [show (toksOf z ++ toksRest zs ++ [[']']]) ++
          (toksRest ys ++ ([']'] :: ts)) =
        toksOf z ++ (toksRest zs ++ ([']'] ::
          (toksRest ys ++ ([']'] :: ts)))) by simp]
      have hz := parseCellF_toksOf z zs hwfy hfly f1
        (toksRest ys ++ ([']'] :: ts)) (by omega)
      rw [hz]
      show parseLoopF f1 (acc ++ [Noun.Cell (z :: zs)])
        (toksRest ys ++ ([']'] :: ts)) = _
      exact parseLoopF_toksOf ys (fun w hw => hmem w (by simp [hw]))
        (acc ++ [.Cell (z :: zs)]) fl f1 ts (by omega) hflat2
termination_by xs _ acc fl f ts _ _ => 2 * Noun.sizeList xs
decreasing_by all_goals ((try simp only [Noun.size, Noun.sizeList]); omega)

end

/-- C9.  Rendering and re-parsing is the identity on well-formed, flattened
nouns: if every cell of `n` has at least two elements (with atoms in `u64`
range, as the Rust representation guarantees) and no cell's last element is
itself a cell, then tokenizing the rendered text of `n` succeeds and parsing
the resulting token stream returns exactly `n`, consuming every token. -/
theorem c9_parse_render_roundtrip (n : Noun) (h1 : Noun.wfB n = true)
    (h2 : Noun.flatB n = true) :
    ∃ (toks : List (List Char)) (fuel : Nat),
      tokenize (render n) = .ok toks ∧ parseF fuel toks = .ok (n, []) := by
  refine ⟨toksOf n, 2 * Noun.size n, ?_, ?_⟩
  · have h := tokenize_render n [] [] trivial rfl
    simpa using h
  · have h := parseF_toksOf n h1 h2 (2 * Noun.size n) [] (le_refl _)
    simpa using h

/-- C9 witness: the round trip at the concrete noun `[1 [2 3] 4]`. -/
theorem c9_parse_render_roundtrip_witness :
    ∃ (toks : List (List Char)) (fuel : Nat),
      tokenize (render (Noun.Cell [atom 1, Noun.Cell [atom 2, atom 3], atom 4])) =
        .ok toks ∧
      parseF fuel toks =
        .ok (Noun.Cell [atom 1, Noun.Cell [atom 2, atom 3], atom 4], []) :=
  c9_parse_render_roundtrip (Noun.Cell [atom 1, Noun.Cell [atom 2, atom 3], atom 4])
    (by decide) (by decide)
